import Mathlib

/-!
# Verification of the slpr plugin-repository engine

A shallow embedding of `slpr.py` (the Sourcelyzer Plugin Repository tool):
semantic-version parsing and comparison (`parse_version`, `compare_versions`,
`_nat_cmp`, `SemverKeySort`), file checksumming (`file_hash`, `file_sums`),
directory packaging (`prepare_plugin_zip`), package ingestion
(`install_plugin`) and index reconstruction (`refresh_repository`),
together with theorems settling the specification's claims about them.

Python strings are modelled as `List Char`; Python's `None`-able values as
`Option`; raised exceptions as `Except`.  Filesystem state is modelled as an
association list from paths (component lists) to file contents, with
last-write-wins overwrite semantics; directories are implicit (a directory
exists when some file lies under it).
-/

set_option autoImplicit false

namespace Slpr

/-- Python strings are sequences of characters. -/
abbrev Str := List Char

/-- Coerce a Lean string literal into the model's string type. -/
def str (s : String) : Str := s.data

/-- Python 2's `cmp` on integers: `(a > b) - (a < b)`. -/
def cmpN (a b : Nat) : Int :=
  if a < b then -1 else if b < a then 1 else 0

/-- Python's `cmp` on strings: lexicographic comparison by code point. -/
def strCmp : Str → Str → Int
  | [], [] => 0
  | [], _ :: _ => -1
  | _ :: _, [] => 1
  | a :: as, b :: bs =>
    if a < b then -1 else if b < a then 1 else strCmp as bs

/-! ## The SemVer grammar (`SEMVER_REGEX` in `slpr.py`)

The regex is
`^(0|[1-9][0-9]*)\.(0|[1-9][0-9]*)\.(0|[1-9][0-9]*)`
`(-((0|[1-9A-Za-z-][0-9A-Za-z-]*)(\.(0|[1-9A-Za-z-][0-9A-Za-z-]*))*))?`
`(\+([0-9A-Za-z-]+(\.[0-9A-Za-z-]+)*))?$`.
Since `+` occurs in no character class, the build part starts at the first
`+`; since `-` occurs in neither the core nor its separators, the prerelease
part starts at the first `-` before any `+`.  Identifiers contain no `.`, so
splitting the prerelease/build parts on `.` and validating each piece is
equivalent to the regex. -/

/-- `[0-9]`. -/
def isDigitC (c : Char) : Bool := '0' ≤ c && c ≤ '9'

/-- `[0-9A-Za-z-]`, the identifier character class. -/
def isIdentC (c : Char) : Bool :=
  isDigitC c || ('A' ≤ c && c ≤ 'Z') || ('a' ≤ c && c ≤ 'z') || c = '-'

/-- `[1-9A-Za-z-]`, the leading character class of a prerelease identifier. -/
def isPreHeadC (c : Char) : Bool :=
  ('1' ≤ c && c ≤ '9') || ('A' ≤ c && c ≤ 'Z') || ('a' ≤ c && c ≤ 'z') || c = '-'

/-- `0|[1-9][0-9]*` — a major/minor/patch field. -/
def isCoreNum (s : Str) : Bool :=
  match s with
  | [] => false
  | c :: cs => (c = '0' && cs = []) || (('1' ≤ c && c ≤ '9') && cs.all isDigitC)

/-- `0|[1-9A-Za-z-][0-9A-Za-z-]*` — one prerelease identifier. -/
def isPreId (s : Str) : Bool :=
  match s with
  | [] => false
  | c :: cs => (c = '0' && cs = []) || (isPreHeadC c && cs.all isIdentC)

/-- `[0-9A-Za-z-]+` — one build identifier. -/
def isBuildId (s : Str) : Bool := !s.isEmpty && s.all isIdentC

/-- Split a string at the first occurrence of `sep`; `none` second component
when `sep` does not occur. -/
def splitOnce (sep : Char) : Str → Str × Option Str
  | [] => ([], none)
  | c :: cs =>
    if c = sep then ([], some cs)
    else
      let r := splitOnce sep cs
      (c :: r.1, r.2)

/-- Numeric value of a digit character. -/
def digitVal (c : Char) : Nat := c.toNat - '0'.toNat

/-- Value of a decimal digit string (how Python's `int` reads it). -/
def natOfDigitStr (s : Str) : Nat := s.foldl (fun acc c => 10 * acc + digitVal c) 0

/-- The groupdict produced by `parse_version`: major/minor/patch converted to
integers, prerelease and build kept as the raw matched substrings. -/
structure PyVersion where
  major : Nat
  minor : Nat
  patch : Nat
  prerelease : Option Str
  build : Option Str
  deriving Repr, DecidableEq

/-- Validity of the (optional) prerelease part: a nonempty dot-separated
sequence of prerelease identifiers. -/
def preOkB : Option Str → Bool
  | none => true
  | some p => (p.splitOn '.').all isPreId

/-- Validity of the (optional) build part. -/
def buildOkB : Option Str → Bool
  | none => true
  | some b => (b.splitOn '.').all isBuildId

/-- Assemble the groupdict from the three regex parts, checking each against
its grammar. -/
def mkVersion (corePart : Str) (prePart buildPart : Option Str) : Option PyVersion :=
  match corePart.splitOn '.' with
  | [maj, min, pat] =>
    if isCoreNum maj && isCoreNum min && isCoreNum pat
        && preOkB prePart && buildOkB buildPart then
      some { major := natOfDigitStr maj, minor := natOfDigitStr min,
             patch := natOfDigitStr pat, prerelease := prePart, build := buildPart }
    else none
  | _ => none

/-- `parse_version` (slpr.py:181): match the string against `SEMVER_REGEX`;
`none` models the raised `ValueError`.  Since `+` belongs to no character
class of the regex, the build part is whatever follows the first `+`; since
`-` occurs in neither the core fields nor their separators, the prerelease
part is whatever follows the first `-` before that. -/
def parse_version (s : Str) : Option PyVersion :=
  mkVersion (splitOnce '-' (splitOnce '+' s).1).1
    (splitOnce '-' (splitOnce '+' s).1).2 (splitOnce '+' s).2

/-! ## `_nat_cmp` and `compare_versions` (slpr.py:195-260)

`convert` applies `int(text)` whenever `re.match('[0-9]+', text)` succeeds,
i.e. whenever `text` starts with a digit.  `int` itself only accepts a string
of digits (no other identifier character may appear), so an identifier that
starts with a digit but is not all digits makes `int` raise `ValueError` —
modelled by `Except.error ()`. -/

/-- A converted prerelease identifier: an integer or the original string. -/
abbrev Tag := Sum Nat Str

/-- `convert` inside `_nat_cmp` (slpr.py:237). -/
def convert (s : Str) : Except Unit Tag :=
  match s with
  | [] => .ok (.inr [])
  | c :: _ =>
    if isDigitC c then
      if s.all isDigitC then .ok (.inl (natOfDigitStr s)) else .error ()
    else .ok (.inr s)

/-- `split_key` inside `_nat_cmp` (slpr.py:240): split on `.` and convert
each piece. -/
def split_key (s : Str) : Except Unit (List Tag) :=
  (s.splitOn '.').mapM convert

/-- `cmp_prerelease_tag` inside `_nat_cmp` (slpr.py:243). -/
def cmp_prerelease_tag : Tag → Tag → Int
  | .inl a, .inl b => cmpN a b
  | .inl _, .inr _ => -1
  | .inr _, .inl _ => 1
  | .inr a, .inr b => strCmp a b

/-- First nonzero element of a list, or a default. -/
def firstNonzero (l : List Int) (d : Int) : Int :=
  match l with
  | [] => d
  | x :: xs => if x = 0 then firstNonzero xs d else x

/-- `_nat_cmp` (slpr.py:235): `None` is replaced by the empty string; the
zipped identifier comparisons decide, falling back to comparing the *string
character lengths* of the two prerelease strings. -/
def nat_cmp (a? b? : Option Str) : Except Unit Int := do
  let a := a?.getD []
  let b := b?.getD []
  let aParts ← split_key a
  let bParts ← split_key b
  return firstNonzero (List.zipWith cmp_prerelease_tag aParts bParts)
    (cmpN a.length b.length)

/-- Python's truthiness test `not prerelease` on an optional string. -/
def preFalsy : Option Str → Bool
  | none => true
  | some s => s.isEmpty

/-- `compare_versions` (slpr.py:195): parse both, compare major/minor/patch,
then prerelease via `_nat_cmp` with the release-beats-prerelease override. -/
def compare_versions (s1 s2 : Str) : Except Unit Int := do
  let some v1 := parse_version s1 | .error ()
  let some v2 := parse_version s2 | .error ()
  let cMaj := cmpN v1.major v2.major
  if cMaj ≠ 0 then return cMaj
  let cMin := cmpN v1.minor v2.minor
  if cMin ≠ 0 then return cMin
  let cPat := cmpN v1.patch v2.patch
  if cPat ≠ 0 then return cPat
  let pc ← nat_cmp v1.prerelease v2.prerelease
  if pc = 0 then return 0
  if preFalsy v1.prerelease then return 1
  if preFalsy v2.prerelease then return (-1)
  return pc

/-- `SemverKeySort.__lt__` (slpr.py:223), the comparison `sorted` uses. -/
def semverLt (a b : Str) : Except Unit Bool :=
  (compare_versions a b).map (· < 0)

/-- Stable insertion of `x` into an already-sorted list: `x` is placed before
the first element it is strictly less than (so ties keep their original
order, as Python's stable `sorted` does). -/
def insertSorted (x : Str) : List Str → Except Unit (List Str)
  | [] => .ok [x]
  | y :: ys => do
    if (← semverLt x y) then return x :: y :: ys
    else return y :: (← insertSorted x ys)

/-- `sorted(·, key=SemverKeySort)` (slpr.py:458): a stable sort driven by
`SemverKeySort.__lt__`, modelled as left-to-right stable insertion sort. -/
def pySorted (l : List Str) : Except Unit (List Str) :=
  l.foldlM (fun acc x => insertSorted x acc) []

/-! ## Checksums (`file_hash`, `file_sums`, slpr.py:263-281)

Real MD5/SHA-256 are not computed; a digest is modelled by the algorithm tag
together with the exact byte sequence fed to the hasher, so two digests agree
iff the algorithm and the hashed bytes agree. -/

/-- The byte sequence `file_hash` (slpr.py:263) feeds to the hasher: the
function reads a single 65536-byte block and updates the hasher once if that
block is nonempty — there is no read loop, so at most the first 65536 bytes
of the file ever reach the hasher. -/
def file_hash_input (content : List Nat) : List Nat := content.take 65536

/-! ## Filesystem model

Paths are lists of components relative to a common root; the repository root,
the plugin archive and scratch directories all live in one association list
from paths to file contents.  Writing is last-write-wins (Python's
`open(..., 'w')` and `shutil.copy` both truncate/overwrite).  Directories are
implicit: a directory exists when some file lies strictly under it. -/

abbrev Path := List Str

/-- The persisted metadata record (`plugin_data`, slpr.py:369): `hashInp` is
the byte sequence that produced the archive's md5/sha256 hex digests stored
under `hashes`. -/
structure Metadata where
  name : Str
  group : Str
  version : Str
  description : Str
  author : Str
  url : Str
  install_date : Nat
  hashInp : List Nat
  deriving Repr, DecidableEq

/-- One `{latest, versions}` entry of `plugins.json` (slpr.py:443). -/
structure PluginEntry where
  latest : Option Str
  versions : List Str
  deriving Repr, DecidableEq

/-- The `plugin_db` dictionary built by `refresh_repository` (slpr.py:407):
the `'groups'` key holds the category list; every other key maps a category
to its name → entry table.  Python dicts preserve insertion order, modelled
by association lists. -/
structure PluginDb where
  groups : List Str
  table : List (Str × List (Str × PluginEntry))
  deriving Repr, DecidableEq

/-- What a hex digest was computed over: raw archive bytes (already truncated
to the single block `file_hash` reads), a serialized metadata record, or a
serialized index document. -/
inductive HashInp where
  | bytes : List Nat → HashInp
  | ofMeta : Metadata → HashInp
  | ofIndex : PluginDb → HashInp
  deriving Repr, DecidableEq

/-- A modelled hex digest: algorithm (`false` = md5, `true` = sha256) and the
input it was computed over. -/
structure HexDigest where
  sha : Bool
  inp : HashInp
  deriving Repr, DecidableEq

/-- `file_sums` (slpr.py:278) on raw file bytes. -/
def file_sums (content : List Nat) : HexDigest × HexDigest :=
  (⟨false, .bytes (file_hash_input content)⟩, ⟨true, .bytes (file_hash_input content)⟩)

/-- File contents: a plugin zip archive (its `[plugin]` descriptor section if
`plugin.ini` exists and has one, plus its raw bytes), a checksum sidecar, a
metadata record, or the index document. -/
inductive Content where
  | zipArchive (ini : Option (List (Str × Str))) (bytes : List Nat)
  | sidecar (d : HexDigest)
  | metaFile (m : Metadata)
  | indexFile (db : PluginDb)
  deriving Repr, DecidableEq

abbrev FS := List (Path × Content)

/-- Overwrite-or-create a file (Python `open(..,'w')` / `shutil.copy`). -/
def fsWrite (fs : FS) (p : Path) (c : Content) : FS :=
  (p, c) :: fs.filter (fun e => e.1 ≠ p)

/-- Read a file. -/
def fsLookup (fs : FS) (p : Path) : Option Content :=
  (fs.find? (fun e => decide (e.1 = p))).map (·.2)

/-- `os.path.exists(dir)` for a directory in the implicit-directory model:
some file lies under it. -/
def dirExists (fs : FS) (dir : Path) : Bool :=
  fs.any (fun e => dir.isPrefixOf e.1)

/-- Mutable world: the filesystem plus the set of live scratch (`mkdtemp`)
directories. -/
structure World where
  fs : FS
  scratches : List Nat
  deriving Repr, DecidableEq

/-- Errors raised by the engine. -/
inductive Err where
  /-- `configparser.NoOptionError` — a required descriptor key is absent. -/
  | missingField (key : Str)
  /-- `configparser.NoSectionError` — no `plugin.ini` / no `[plugin]` section. -/
  | noSection
  /-- An injected I/O failure (`IOError`/`OSError`). -/
  | ioError
  /-- `json.load` found something that is not a metadata record. -/
  | malformedRecord
  /-- `TypeError`: a category literally named `groups` collides with the
  `plugin_db['groups']` list and gets list-indexed by a string. -/
  | typeErr
  /-- `KeyError` during the ranking loop (unreachable for reachable dbs). -/
  | keyErr
  /-- `ValueError` raised by `compare_versions` while sorting. -/
  | valueErr
  /-- `IndexError` from `sorted_versions[-1:][0]` on an empty list. -/
  | indexErr
  deriving Repr, DecidableEq

/-- Engine actions: explicit state threading plus exceptions.  The `Nat`
component counts I/O steps so that an oracle can decide which of them
fail.  (`M α` is `ExceptT Err (StateM St) α` spelt out, so every run is a
plain function application.) -/
abbrev St := World × Nat

def M (α : Type) : Type := St → Except Err α × St

instance : Monad M where
  pure a := fun s => (.ok a, s)
  bind x f := fun s =>
    match x s with
    | (.ok a, s') => f a s'
    | (.error e, s') => (.error e, s')

/-- Read the current state. -/
def getM : M St := fun s => (.ok s, s)

/-- Replace the current state. -/
def setM (s' : St) : M Unit := fun _ => (.ok (), s')

/-- Raise an exception. -/
def throwM {α : Type} (e : Err) : M α := fun s => (.error e, s)

/-- Lift a pure fallible computation. -/
def liftE {α : Type} (x : Except Err α) : M α := fun s => (x, s)

/-- One fallible I/O step: consult the oracle at the current step index. -/
def ioStep (oracle : Nat → Bool) : M Unit := do
  let s ← getM
  setM (s.1, s.2 + 1)
  if oracle s.2 then pure () else throwM .ioError

/-- A fallible file write. -/
def writeFile (oracle : Nat → Bool) (p : Path) (c : Content) : M Unit := do
  ioStep oracle
  let s ← getM
  setM ({ s.1 with fs := fsWrite s.1.fs p c }, s.2)

/-- `config.get('plugin', key)` (slpr.py:338): `NoSectionError` when the
descriptor section is absent, `NoOptionError` when the key is absent. -/
def configGet (ini : Option (List (Str × Str))) (key : Str) : M Str :=
  match ini with
  | none => throwM .noSection
  | some kvs =>
    match kvs.find? (fun e => decide (e.1 = key)) with
    | none => throwM (.missingField key)
    | some e => pure e.2

/-- `'%s.%s-%s' % (group, name, version)` (slpr.py:342). -/
def pluginKey (group name version : Str) : Str :=
  group ++ str "." ++ name ++ str "-" ++ version

/-- In-place association-list update, preserving insertion order (Python
dict assignment to an existing key). -/
def updateAssoc {α : Type} (l : List (Str × α)) (k : Str) (v : α) : List (Str × α) :=
  match l with
  | [] => [(k, v)]
  | (k', v') :: t => if k' = k then (k, v) :: t else (k', v') :: updateAssoc t k v

/-! ## `refresh_repository` (slpr.py:403-479) -/

/-- Does the walk of `repo_dir` yield this path: a file strictly below the
repository root whose filename is exactly `metadata.json`
(`fnmatch.filter(filenames, 'metadata.json')`, slpr.py:425). -/
def isMetaPath (repo : Path) (p : Path) : Bool :=
  repo.isPrefixOf p && decide (repo.length < p.length) &&
    decide (p.getLastD [] = str "metadata.json")

/-- The body of the scan loop (slpr.py:428-453): fold one metadata record
into `plugin_db`.  A record whose category is literally `"groups"` makes the
original index the list stored at `plugin_db['groups']` and then string-
indexes that list, a `TypeError`. -/
def processRecord (db : PluginDb) (m : Metadata) : Except Err PluginDb :=
  let groups := if m.group ∈ db.groups then db.groups else db.groups ++ [m.group]
  if m.group = str "groups" then throw .typeErr
  else
    let table := if (db.table.find? (fun e => decide (e.1 = m.group))).isSome
      then db.table else db.table ++ [(m.group, [])]
    let sub := (((table.find? (fun e => decide (e.1 = m.group))).map (·.2)).getD [])
    let sub := if (sub.find? (fun e => decide (e.1 = m.name))).isSome
      then sub else sub ++ [(m.name, { latest := none, versions := [] })]
    let entry : PluginEntry := (((sub.find? (fun e => decide (e.1 = m.name))).map (·.2)).getD
      { latest := none, versions := [] })
    let entry := if m.version ∈ entry.versions then entry
      else { entry with versions := entry.versions ++ [m.version] }
    pure { groups := groups, table := updateAssoc table m.group (updateAssoc sub m.name entry) }

/-- The ranking loop (slpr.py:455-461): sort each name's version list with
`SemverKeySort` and point `latest` at the last element. -/
def sortPhase (db : PluginDb) : Except Err PluginDb := do
  let table ← db.groups.foldlM (fun table t => do
    match (table.find? (fun e => decide (e.1 = t))).map (·.2) with
    | none => throw Err.keyErr
    | some sub => do
      let sub' ← sub.mapM (fun e => do
        match pySorted e.2.versions with
        | .error _ => throw Err.valueErr
        | .ok sv =>
          match sv.getLast? with
          | none => throw Err.indexErr
          | some last => pure (e.1, ({ latest := some last, versions := sv } : PluginEntry)))
      pure (updateAssocAll table t sub')) db.table
  pure { db with table := table }
where
  /-- Replace the whole sub-table stored under `t`. -/
  updateAssocAll (l : List (Str × List (Str × PluginEntry))) (k : Str)
      (v : List (Str × PluginEntry)) : List (Str × List (Str × PluginEntry)) :=
    updateAssoc l k v

/-- The scan loop of `refresh_repository` (slpr.py:424-453): walk the tree
for files named `metadata.json`, parse each, and fold the records into a
fresh `plugin_db`.  The walk and the loop read but never write, so this is a
pure fallible computation over the filesystem snapshot. -/
def scanRecords (fs : FS) (repo : Path) : Except Err PluginDb :=
  ((fs.filter (fun e => isMetaPath repo e.1)).map (·.1)).foldlM (fun db fn =>
    match fsLookup fs fn with
    | some (.metaFile m) => processRecord db m
    | _ => throw .malformedRecord) ({ groups := [], table := [] } : PluginDb)

/-- `refresh_repository` (slpr.py:403): walk the tree for metadata records,
aggregate, rank, and persist `plugins.json` with its two sidecars.  The
index document that was written is also returned for convenience. -/
def refresh_repository (oracle : Nat → Bool) (repo : Path) : M PluginDb := do
  let s ← getM
  let db0 ← liftE (scanRecords s.1.fs repo)
  let db ← liftE (sortPhase db0)
  writeFile oracle (repo ++ [str "plugins.json"]) (.indexFile db)
  writeFile oracle (repo ++ [str "plugins.json.md5"]) (.sidecar ⟨false, .ofIndex db⟩)
  writeFile oracle (repo ++ [str "plugins.json.sha256"]) (.sidecar ⟨true, .ofIndex db⟩)
  pure db

/-! ## `install_plugin` (slpr.py:306-400) -/

/-- A plugin zip archive: its `[plugin]` descriptor section (if `plugin.ini`
exists inside it and has one) and its raw bytes. -/
structure Archive where
  ini : Option (List (Str × Str))
  bytes : List Nat
  deriving Repr, DecidableEq

/-- The `try:` block of `install_plugin` (slpr.py:330-394), entered after the
scratch directory has been created. -/
def installBody (oracle : Nat → Bool) (arch : Archive) (repo : Path) (now : Nat) :
    M Unit := do
  ioStep oracle                    -- zip_ref.extractall(tmpdirname)
  let name ← configGet arch.ini (str "name")
  let group ← configGet arch.ini (str "group")
  let version ← configGet arch.ini (str "version")
  let key := pluginKey group name version
  let dir := repo ++ [group, name, version]
  ioStep oracle                    -- os.makedirs(plugin_dir) / file_sums read
  let (md5d, shad) := file_sums arch.bytes
  writeFile oracle (dir ++ [key ++ str ".zip.md5"]) (.sidecar md5d)
  writeFile oracle (dir ++ [key ++ str ".zip.sha256"]) (.sidecar shad)
  writeFile oracle (dir ++ [key ++ str ".zip"]) (.zipArchive arch.ini arch.bytes)
  let description ← configGet arch.ini (str "description")
  let author ← configGet arch.ini (str "author")
  let url ← configGet arch.ini (str "url")
  let m : Metadata := { name := name, group := group, version := version,
                        description := description, author := author, url := url,
                        install_date := now, hashInp := file_hash_input arch.bytes }
  writeFile oracle (dir ++ [str "metadata.json"]) (.metaFile m)
  writeFile oracle (dir ++ [str "metadata.json.md5"]) (.sidecar ⟨false, .ofMeta m⟩)
  writeFile oracle (dir ++ [str "metadata.json.sha256"]) (.sidecar ⟨true, .ofMeta m⟩)

/-- The `finally: shutil.rmtree(tmpdirname)` wrapper: whatever the body's
outcome, the scratch directory is removed before control returns. -/
def withScratchRemoved (tmp : Nat) (body : M Unit) : M Unit := fun s =>
  let r := body s
  (r.1, ({ r.2.1 with scratches := r.2.1.scratches.filter (· ≠ tmp) }, r.2.2))

/-- `tempfile.mkdtemp` (slpr.py:328): record a fresh scratch directory. -/
def mkScratch : M Nat := do
  let s ← getM
  let tmp := (s.1.scratches.foldl max 0) + 1
  setM ({ s.1 with scratches := s.1.scratches ++ [tmp] }, s.2)
  pure tmp

/-- `install_plugin` (slpr.py:306): create the repository if absent, make a
scratch directory, run the body, and always remove the scratch directory. -/
def install_plugin (oracle : Nat → Bool) (arch : Archive) (repo : Path) (now : Nat) :
    M Unit := do
  let s ← getM
  if ¬ dirExists s.1.fs repo then
    _ ← refresh_repository oracle repo
  let tmp ← mkScratch
  withScratchRemoved tmp (installBody oracle arch repo now)

/-- `install` (slpr.py:482): refresh if the repository is missing, install,
then rebuild the index. -/
def install (oracle : Nat → Bool) (arch : Archive) (repo : Path) (now : Nat) :
    M PluginDb := do
  let s ← getM
  if ¬ dirExists s.1.fs repo then
    _ ← refresh_repository oracle repo
  install_plugin oracle arch repo now
  refresh_repository oracle repo

/-! ## `prepare_plugin_zip` (slpr.py:283-303) -/

/-- `config['plugin'][key]`: `KeyError` on a missing section or key, which we
fold into the same error constructors. -/
def configIndex (ini : Option (List (Str × Str))) (key : Str) : Except Err Str :=
  match ini with
  | none => throw .noSection
  | some kvs =>
    match kvs.find? (fun e => decide (e.1 = key)) with
    | none => throw (.missingField key)
    | some e => pure e.2

/-- `prepare_plugin_zip` (slpr.py:283): given the files under `plugin_dir`
(as paths relative to it) and its descriptor section, compute the archive
filename and the zip entries.  The archive is created (empty) inside
`plugin_dir` before the walk, so the walk sees it too; every walked file is
added to the zip under its basename (`zf.write(os.path.join(root, fn), fn)`
flattens paths) unless its basename equals the archive's filename. -/
def prepare_plugin_zip (tree : List Path) (ini : Option (List (Str × Str))) :
    Except Err (Str × List (Str × Path)) := do
  let group ← configIndex ini (str "group")
  let name ← configIndex ini (str "name")
  let version ← configIndex ini (str "version")
  let zipName := pluginKey group name version ++ str ".zip"
  let entries := (tree ++ [[zipName]]).filterMap (fun p =>
    if p.getLastD [] = zipName then none else some (p.getLastD [], p))
  pure (zipName, entries)

/-! ## Spec-side comparison (for the refinement claims)

The following definitions follow the specification's words (§4.1), not the
code: prerelease sequences are compared identifier-by-identifier, numeric
identifiers numerically and below alphanumeric ones, alphanumeric ones
lexicographically; if all corresponding identifiers agree, the shorter
*identifier sequence* sorts lower. -/

/-- A classified prerelease identifier, per the spec: either it parses as an
integer or it stays a string. -/
inductive SpecId where
  | num (n : Nat)
  | alnum (s : Str)
  deriving Repr, DecidableEq

/-- Classify one identifier the way the spec reads it. -/
def classifyId (s : Str) : SpecId :=
  if !s.isEmpty && s.all isDigitC then .num (natOfDigitStr s) else .alnum s

/-- Spec comparison of a single identifier pair: both numeric → numeric
comparison; the numeric one sorts lower; otherwise lexicographic. -/
def specIdCmp : SpecId → SpecId → Int
  | .num a, .num b => cmpN a b
  | .num _, .alnum _ => -1
  | .alnum _, .num _ => 1
  | .alnum a, .alnum b => strCmp a b

/-- Spec comparison of prerelease identifier sequences: the first differing
pair decides; with all shared identifiers equal the shorter sequence sorts
lower. -/
def specPreCmp : List Str → List Str → Int
  | [], [] => 0
  | [], _ :: _ => -1
  | _ :: _, [] => 1
  | a :: as, b :: bs =>
    let c := specIdCmp (classifyId a) (classifyId b)
    if c = 0 then specPreCmp as bs else c

/-! ## An order key for versions

`compare_versions` (restricted to inputs it does not crash on) is shown to be
the three-way comparison of a key drawn from a lexicographic linear order:
major, then minor, then patch, then the prerelease, where the absence of a
prerelease is `⊤` and a prerelease is its identifier sequence ordered
lexicographically with numeric identifiers (`Sum.inl`) below alphanumeric
ones (`Sum.inr`). -/

/-- Key of one prerelease identifier. -/
abbrev IdKey := Lex (Nat ⊕ List Char)

/-- Key of an optional prerelease. -/
abbrev PreKey := WithTop (List IdKey)

/-- Key of a whole version. -/
abbrev VerKey := Lex (Nat × Lex (Nat × Lex (Nat × PreKey)))

/-- Identifier → key. -/
def idKey (s : Str) : IdKey :=
  match classifyId s with
  | .num n => toLex (Sum.inl n)
  | .alnum t => toLex (Sum.inr t)

/-- Optional prerelease string → key. -/
def preKey : Option Str → PreKey
  | none => ⊤
  | some p => ((p.splitOn '.').map idKey : List IdKey)

/-- Parsed version → key. -/
def pvKey (v : PyVersion) : VerKey :=
  toLex (v.major, toLex (v.minor, toLex (v.patch, preKey v.prerelease)))

/-- Version string → key (arbitrary at strings that do not parse). -/
def verKey (x : Str) : VerKey :=
  match parse_version x with
  | some v => pvKey v
  | none => toLex (0, toLex (0, toLex (0, preKey none)))

/-- Three-way comparison derived from a linear order. -/
def cmpK {α : Type} [LinearOrder α] (a b : α) : Int :=
  if a < b then -1 else if b < a then 1 else 0

/-! ## Safety and validity predicates for prerelease identifiers -/

/-- `convert` handles this identifier without raising: it does not start
with a digit, or it consists only of digits. -/
def intSafe (s : Str) : Bool :=
  match s with
  | [] => true
  | c :: _ => !isDigitC c || s.all isDigitC

/-- All identifiers of an optional prerelease string are `intSafe`. -/
def preSafe : Option Str → Bool
  | none => true
  | some p => (p.splitOn '.').all intSafe

/-- The value `convert` yields when it does not raise. -/
def convVal (s : Str) : Tag :=
  match convert s with
  | .ok t => t
  | .error _ => .inr s

/-- Join identifiers with dots (inverse of `splitOn '.'`). -/
def joinDots (ls : List Str) : Str := [('.' : Char)].intercalate ls

/-- A version string the comparator fully handles: it parses, and every
prerelease identifier survives `convert`. -/
def Good (x : Str) : Prop :=
  ∃ v, parse_version x = some v ∧ preSafe v.prerelease = true

/-! ## Elementary comparison lemmas -/

theorem cmpN_range (a b : Nat) : cmpN a b = -1 ∨ cmpN a b = 0 ∨ cmpN a b = 1 := by
  unfold cmpN; split
  · exact Or.inl rfl
  · split
    · exact Or.inr (Or.inr rfl)
    · exact Or.inr (Or.inl rfl)

theorem cmpN_antisym (a b : Nat) : cmpN b a = -cmpN a b := by
  unfold cmpN; split <;> split <;> omega

theorem cmpN_eq_zero_iff {a b : Nat} : cmpN a b = 0 ↔ a = b := by
  unfold cmpN; split <;> rename_i h
  · omega
  · split <;> rename_i h' <;> omega

theorem cmpN_neg_iff {a b : Nat} : cmpN a b < 0 ↔ a < b := by
  unfold cmpN; split <;> rename_i h
  · omega
  · split <;> rename_i h' <;> omega

theorem cmpN_add_left (k a b : Nat) : cmpN (k + a) (k + b) = cmpN a b := by
  unfold cmpN; split <;> rename_i h
  · rw [if_pos]; omega
  · split <;> rename_i h'
    · rw [if_neg, if_pos] <;> omega
    · rw [if_neg, if_neg] <;> omega

theorem strCmp_range (s t : Str) : strCmp s t = -1 ∨ strCmp s t = 0 ∨ strCmp s t = 1 := by
  induction s generalizing t with
  | nil => cases t <;> simp [strCmp]
  | cons a as ih =>
    cases t with
    | nil => simp [strCmp]
    | cons b bs =>
      unfold strCmp
      split
      · exact Or.inl rfl
      · split
        · exact Or.inr (Or.inr rfl)
        · exact ih bs

theorem strCmp_antisym (s t : Str) : strCmp t s = -strCmp s t := by
  induction s generalizing t with
  | nil => cases t <;> simp [strCmp]
  | cons a as ih =>
    cases t with
    | nil => simp [strCmp]
    | cons b bs =>
      unfold strCmp
      rcases lt_trichotomy a b with h | h | h
      · simp [h, lt_asymm h]
      · subst h
        simp only [lt_irrefl, if_false]
        exact ih bs
      · simp [h, lt_asymm h]

theorem strCmp_eq_zero_iff {s t : Str} : strCmp s t = 0 ↔ s = t := by
  induction s generalizing t with
  | nil => cases t <;> simp [strCmp]
  | cons a as ih =>
    cases t with
    | nil => simp [strCmp]
    | cons b bs =>
      unfold strCmp
      rcases lt_trichotomy a b with h | h | h
      · rw [if_pos h]
        simp only [neg_eq_zero, one_ne_zero, false_iff]
        intro hc; injection hc with h1 _; exact absurd h1 (ne_of_lt h)
      · subst h
        rw [if_neg (lt_irrefl a), if_neg (lt_irrefl a)]
        rw [ih]
        constructor
        · intro h'; rw [h']
        · intro h'; injection h'
      · rw [if_neg (lt_asymm h), if_pos h]
        simp only [one_ne_zero, false_iff]
        intro hc; injection hc with h1 _; exact absurd h1 (ne_of_gt h)

theorem strCmp_neg_iff {s t : Str} : strCmp s t < 0 ↔ List.Lex (· < ·) s t := by
  induction s generalizing t with
  | nil =>
    cases t with
    | nil => simp [strCmp]
    | cons b bs => simpa [strCmp] using List.Lex.nil
  | cons a as ih =>
    cases t with
    | nil =>
      simp only [strCmp]
      constructor
      · omega
      · intro h; cases h
    | cons b bs =>
      unfold strCmp
      rcases lt_trichotomy a b with h | h | h
      · rw [if_pos h]
        simp only [show ((-1 : Int) < 0) from by omega, true_iff]
        exact List.Lex.rel h
      · subst h
        rw [if_neg (lt_irrefl a), if_neg (lt_irrefl a)]
        rw [ih, List.Lex.cons_iff]
      · rw [if_neg (lt_asymm h), if_pos h]
        simp only [show ¬((1 : Int) < 0) from by omega, false_iff]
        intro hc
        cases hc with
        | cons h' => exact absurd rfl (ne_of_gt h)
        | rel h' => exact absurd h' (lt_asymm h)

/-! ## `convert` on safe identifiers -/

/-- The tag `convert` produces, expressed through the spec classification. -/
def tagOfSpec : SpecId → Tag
  | .num n => .inl n
  | .alnum s => .inr s

theorem convert_isOk_of_intSafe {s : Str} (h : intSafe s = true) :
    ∃ t, convert s = .ok t := by
  cases s with
  | nil => exact ⟨_, rfl⟩
  | cons c cs =>
    unfold intSafe at h
    by_cases hd : isDigitC c
    · simp only [hd, Bool.not_true, Bool.false_or] at h
      exact ⟨.inl (natOfDigitStr (c :: cs)), by simp [convert, hd, h]⟩
    · exact ⟨.inr (c :: cs), by simp [convert, hd]⟩

theorem convert_ok_of_intSafe {s : Str} (h : intSafe s = true) :
    convert s = .ok (convVal s) := by
  obtain ⟨t, ht⟩ := convert_isOk_of_intSafe h
  rw [ht]
  unfold convVal
  rw [ht]

theorem convVal_eq_tagOfSpec {s : Str} (h : intSafe s = true) :
    convVal s = tagOfSpec (classifyId s) := by
  cases s with
  | nil => rfl
  | cons c cs =>
    unfold intSafe at h
    by_cases hd : isDigitC c
    · simp only [hd, Bool.not_true, Bool.false_or] at h
      have hc : convert (c :: cs) = .ok (.inl (natOfDigitStr (c :: cs))) := by
        simp [convert, hd, h]
      have hcl : classifyId (c :: cs) = .num (natOfDigitStr (c :: cs)) := by
        simp [classifyId, List.isEmpty, h]
      rw [hcl]
      unfold convVal
      rw [hc]
      rfl
    · have hc : convert (c :: cs) = .ok (.inr (c :: cs)) := by
        simp [convert, hd]
      have hall : (c :: cs).all isDigitC = false := by
        simp [List.all_cons, hd]
      have hcl : classifyId (c :: cs) = .alnum (c :: cs) := by
        simp [classifyId, hall]
      rw [hcl]
      unfold convVal
      rw [hc]
      rfl

theorem cmp_tag_eq_specIdCmp (A B : SpecId) :
    cmp_prerelease_tag (tagOfSpec A) (tagOfSpec B) = specIdCmp A B := by
  cases A <;> cases B <;> rfl

theorem mapM_convert_ok {l : List Str} (h : ∀ x ∈ l, intSafe x = true) :
    l.mapM convert = .ok (l.map convVal) := by
  induction l with
  | nil => rfl
  | cons a as ih =>
    rw [List.mapM_cons, convert_ok_of_intSafe (h a (List.mem_cons_self a as)),
      ih (fun x hx => h x (List.mem_cons_of_mem a hx))]
    rfl

theorem split_key_ok {p : Str} (h : (p.splitOn '.').all intSafe = true) :
    split_key p = .ok ((p.splitOn '.').map convVal) := by
  unfold split_key
  exact mapM_convert_ok (fun x hx => by
    have := List.all_eq_true.mp h x hx
    exact this)

/-! ## `specIdCmp` against the identifier key order -/

/-- Key of a classified identifier. -/
def skey : SpecId → IdKey
  | .num n => toLex (Sum.inl n)
  | .alnum s => toLex (Sum.inr s)

theorem idKey_eq_skey (s : Str) : idKey s = skey (classifyId s) := by
  unfold idKey skey; cases classifyId s <;> rfl

theorem specIdCmp_range (A B : SpecId) :
    specIdCmp A B = -1 ∨ specIdCmp A B = 0 ∨ specIdCmp A B = 1 := by
  cases A <;> cases B <;> simp [specIdCmp, cmpN_range, strCmp_range]

theorem specIdCmp_zero_iff {A B : SpecId} : specIdCmp A B = 0 ↔ skey A = skey B := by
  cases A <;> cases B <;>
    simp [specIdCmp, skey, cmpN_eq_zero_iff, strCmp_eq_zero_iff, toLex_inj]

theorem listChar_lt_iff {s t : List Char} : s < t ↔ List.Lex (· < ·) s t :=
  Iff.rfl

theorem specIdCmp_neg_iff {A B : SpecId} : specIdCmp A B < 0 ↔ skey A < skey B := by
  cases A with
  | num a =>
    cases B with
    | num b =>
      simp [specIdCmp, skey, cmpN_neg_iff, Sum.Lex.inl_lt_inl_iff]
    | alnum b =>
      simp only [specIdCmp, skey]
      constructor
      · intro _; exact Sum.Lex.inl_lt_inr a b
      · intro _; omega
  | alnum a =>
    cases B with
    | num b =>
      simp only [specIdCmp, skey]
      constructor
      · intro h; omega
      · intro h
        exact absurd (Sum.Lex.lt_def.mp h) Sum.lex_inr_inl
    | alnum b =>
      simp only [specIdCmp, skey, Sum.Lex.inr_lt_inr_iff]
      rw [strCmp_neg_iff, listChar_lt_iff]

/-! ## `specPreCmp` against the sequence key order -/

theorem specPreCmp_cons_cons (a b : Str) (as bs : List Str) :
    specPreCmp (a :: as) (b :: bs)
      = if specIdCmp (classifyId a) (classifyId b) = 0
        then specPreCmp as bs else specIdCmp (classifyId a) (classifyId b) := rfl

theorem lex_cons_inv {α : Type} [LinearOrder α] {x y : α} {l₁ l₂ : List α}
    (h : List.Lex (· < ·) (x :: l₁) (y :: l₂)) :
    x < y ∨ (x = y ∧ List.Lex (· < ·) l₁ l₂) := by
  cases h with
  | cons h' => exact Or.inr ⟨rfl, h'⟩
  | rel h' => exact Or.inl h'

theorem specPreCmp_range (ps qs : List Str) :
    specPreCmp ps qs = -1 ∨ specPreCmp ps qs = 0 ∨ specPreCmp ps qs = 1 := by
  induction ps generalizing qs with
  | nil => cases qs <;> simp [specPreCmp]
  | cons a as ih =>
    cases qs with
    | nil => simp [specPreCmp]
    | cons b bs =>
      rw [specPreCmp_cons_cons]
      split
      · exact ih bs
      · exact specIdCmp_range _ _

theorem specPreCmp_zero_iff {ps qs : List Str} :
    specPreCmp ps qs = 0 ↔ ps.map idKey = qs.map idKey := by
  induction ps generalizing qs with
  | nil => cases qs <;> simp [specPreCmp]
  | cons a as ih =>
    cases qs with
    | nil => simp [specPreCmp]
    | cons b bs =>
      rw [specPreCmp_cons_cons]
      simp only [List.map_cons, List.cons.injEq]
      split <;> rename_i hc
      · rw [ih]
        have : idKey a = idKey b := by
          rw [idKey_eq_skey, idKey_eq_skey]
          exact specIdCmp_zero_iff.mp hc
        simp [this]
      · constructor
        · intro h; exact absurd h hc
        · rintro ⟨h1, -⟩
          rw [idKey_eq_skey, idKey_eq_skey] at h1
          exact absurd (specIdCmp_zero_iff.mpr h1) hc

theorem list_lt_iff_lex {α : Type} [LinearOrder α] {s t : List α} :
    s < t ↔ List.Lex (· < ·) s t :=
  Iff.rfl

theorem specPreCmp_neg_iff {ps qs : List Str} :
    specPreCmp ps qs < 0 ↔ (ps.map idKey : List IdKey) < qs.map idKey := by
  rw [list_lt_iff_lex]
  induction ps generalizing qs with
  | nil =>
    cases qs with
    | nil =>
      simp only [specPreCmp, List.map_nil]
      exact ⟨fun h => absurd h (by omega), fun h => absurd h (List.Lex.not_nil_right _ _)⟩
    | cons b bs =>
      simp only [specPreCmp, List.map_nil, List.map_cons]
      exact ⟨fun _ => List.Lex.nil, fun _ => by omega⟩
  | cons a as ih =>
    cases qs with
    | nil =>
      simp only [specPreCmp, List.map_cons, List.map_nil]
      exact ⟨fun h => absurd h (by omega), fun h => absurd h (List.Lex.not_nil_right _ _)⟩
    | cons b bs =>
      rw [specPreCmp_cons_cons]
      simp only [List.map_cons]
      split <;> rename_i hc
      · have hk : idKey a = idKey b := by
          rw [idKey_eq_skey, idKey_eq_skey]; exact specIdCmp_zero_iff.mp hc
        rw [ih, hk, List.Lex.cons_iff]
      · rcases specIdCmp_range (classifyId a) (classifyId b) with h | h | h
        · have hk : idKey a < idKey b := by
            rw [idKey_eq_skey, idKey_eq_skey]
            exact specIdCmp_neg_iff.mp (by omega)
          rw [h]
          exact ⟨fun _ => List.Lex.rel hk, fun _ => by omega⟩
        · exact absurd h hc
        · rw [h]
          constructor
          · intro hlt; omega
          · intro hlex
            have hne : idKey a ≠ idKey b := fun he => by
              have : specIdCmp (classifyId a) (classifyId b) = 0 := by
                rw [specIdCmp_zero_iff, ← idKey_eq_skey, ← idKey_eq_skey]
                exact he
              omega
            have hnlt : ¬ idKey a < idKey b := fun hlt => by
              have : specIdCmp (classifyId a) (classifyId b) < 0 := by
                rw [specIdCmp_neg_iff, ← idKey_eq_skey, ← idKey_eq_skey]
                exact hlt
              omega
            rcases lex_cons_inv hlex with h' | ⟨h', -⟩
            · exact absurd h' hnlt
            · exact absurd h' hne

/-! ## Canonical decimal identifiers -/

theorem char_toNat_inj {a b : Char} (h : a.toNat = b.toNat) : a = b :=
  Char.ext (UInt32.ext h)

theorem char_le_iff {a b : Char} : a ≤ b ↔ a.toNat ≤ b.toNat := Iff.rfl

theorem isDigitC_toNat {c : Char} (h : isDigitC c = true) :
    48 ≤ c.toNat ∧ c.toNat ≤ 57 := by
  unfold isDigitC at h
  rw [Bool.and_eq_true, decide_eq_true_eq, decide_eq_true_eq] at h
  exact ⟨char_le_iff.mp h.1, char_le_iff.mp h.2⟩

theorem digitVal_lt_ten {c : Char} (h : isDigitC c = true) : digitVal c < 10 := by
  have := isDigitC_toNat h
  unfold digitVal
  have h0 : ('0' : Char).toNat = 48 := rfl
  omega

theorem digitVal_inj {a b : Char} (ha : isDigitC a = true) (hb : isDigitC b = true)
    (h : digitVal a = digitVal b) : a = b := by
  have h1 := isDigitC_toNat ha
  have h2 := isDigitC_toNat hb
  unfold digitVal at h
  have h0 : ('0' : Char).toNat = 48 := rfl
  exact char_toNat_inj (by omega)

theorem map_digitVal_inj : ∀ {s t : Str}, s.all isDigitC = true → t.all isDigitC = true →
    s.map digitVal = t.map digitVal → s = t
  | [], [], _, _, _ => rfl
  | [], _ :: _, _, _, h => by simp at h
  | _ :: _, [], _, _, h => by simp at h
  | a :: as, b :: bs, ha, hb, h => by
    rw [List.all_cons, Bool.and_eq_true] at ha hb
    rw [List.map_cons, List.map_cons] at h
    injection h with h1 h2
    rw [digitVal_inj ha.1 hb.1 h1, map_digitVal_inj ha.2 hb.2 h2]

theorem natOfDigitStr_foldl (s : Str) (acc : Nat) :
    s.foldl (fun a c => 10 * a + digitVal c) acc
      = acc * 10 ^ s.length + Nat.ofDigits 10 (s.map digitVal).reverse := by
  induction s generalizing acc with
  | nil => simp [Nat.ofDigits]
  | cons c cs ih =>
    simp only [List.foldl_cons, List.map_cons, List.reverse_cons, List.length_cons]
    rw [ih, Nat.ofDigits_append]
    simp only [Nat.ofDigits_singleton, List.length_reverse, List.length_map]
    ring

theorem natOfDigitStr_eq (s : Str) :
    natOfDigitStr s = Nat.ofDigits 10 (s.map digitVal).reverse := by
  have := natOfDigitStr_foldl s 0
  simpa [natOfDigitStr] using this

theorem natOfDigitStr_pos {c : Char} (cs : Str) (h1 : ('1' : Char) ≤ c) :
    0 < natOfDigitStr (c :: cs) := by
  rw [natOfDigitStr_eq, List.map_cons, List.reverse_cons, Nat.ofDigits_append]
  have hd : 1 ≤ digitVal c := by
    have := char_le_iff.mp h1
    have h0 : ('0' : Char).toNat = 48 := rfl
    have h1' : ('1' : Char).toNat = 49 := rfl
    unfold digitVal
    omega
  have hp : 0 < 10 ^ (cs.map digitVal).reverse.length := pow_pos (by norm_num) _
  have : 0 < 10 ^ (cs.map digitVal).reverse.length * Nat.ofDigits 10 [digitVal c] := by
    rw [Nat.ofDigits_singleton]
    exact Nat.mul_pos hp hd
  omega

theorem isPreHeadC_digit {c : Char} (hph : isPreHeadC c = true) (hd : isDigitC c = true) :
    ('1' : Char) ≤ c ∧ c ≤ ('9' : Char) := by
  have hb := isDigitC_toNat hd
  unfold isPreHeadC at hph
  simp only [Bool.or_eq_true, Bool.and_eq_true, decide_eq_true_eq] at hph
  rcases hph with ((h | h) | h) | h
  · exact h
  · exfalso
    have := char_le_iff.mp h.1
    have hA : ('A' : Char).toNat = 65 := rfl
    omega
  · exfalso
    have := char_le_iff.mp h.1
    have ha : ('a' : Char).toNat = 97 := rfl
    omega
  · exfalso
    subst h
    revert hb
    decide

/-- An all-digit prerelease identifier is a canonical decimal numeral:
either `"0"` or a nonzero leading digit followed by digits. -/
theorem canonical_of_digits {s : Str} (hp : isPreId s = true) (hd : s.all isDigitC = true) :
    s = ['0'] ∨ ∃ c cs, s = c :: cs ∧ ('1' : Char) ≤ c ∧ cs.all isDigitC = true := by
  cases s with
  | nil => exact absurd hp (by simp [isPreId])
  | cons c cs =>
    unfold isPreId at hp
    rw [List.all_cons, Bool.and_eq_true] at hd
    simp only [Bool.or_eq_true, Bool.and_eq_true, decide_eq_true_eq] at hp
    rcases hp with ⟨h0, hnil⟩ | ⟨hh, -⟩
    · exact Or.inl (by rw [h0, hnil])
    · exact Or.inr ⟨c, cs, rfl, (isPreHeadC_digit hh hd.1).1, hd.2⟩

/-- Canonical decimal numerals with equal value are equal strings. -/
theorem canonical_nat_inj {s t : Str} (hs : isPreId s = true) (hds : s.all isDigitC = true)
    (ht : isPreId t = true) (hdt : t.all isDigitC = true)
    (h : natOfDigitStr s = natOfDigitStr t) : s = t := by
  rcases canonical_of_digits hs hds with h0 | ⟨c, cs, rfl, hc1, -⟩ <;>
    rcases canonical_of_digits ht hdt with h0' | ⟨d, ds, rfl, hd1, -⟩
  · rw [h0, h0']
  · exfalso
    rw [h0] at h
    have := natOfDigitStr_pos ds hd1
    have hz : natOfDigitStr ['0'] = 0 := rfl
    omega
  · exfalso
    rw [h0'] at h
    have := natOfDigitStr_pos cs hc1
    have hz : natOfDigitStr ['0'] = 0 := rfl
    omega
  · -- both are nonzero-leading numerals: apply base-10 digit uniqueness
    have hlast : ∀ (u : Char) (us : Str), ('1' : Char) ≤ u →
        ∀ hne : ((u :: us).map digitVal).reverse ≠ [],
          (((u :: us).map digitVal).reverse).getLast hne ≠ 0 := by
      intro u us hu hne
      have hq : ((u :: us).map digitVal).reverse.getLast? = some (digitVal u) := by
        rw [List.map_cons, List.reverse_cons, List.getLast?_concat]
      have hg := List.getLast?_eq_getLast _ hne
      rw [hq] at hg
      injection hg with hg
      have := char_le_iff.mp hu
      have h1' : ('1' : Char).toNat = 49 := rfl
      have h0 : ('0' : Char).toNat = 48 := rfl
      rw [← hg]
      unfold digitVal
      omega
    have hmem : ∀ (u : Str), u.all isDigitC = true →
        ∀ l ∈ (u.map digitVal).reverse, l < 10 := by
      intro u hu l hl
      rw [List.mem_reverse, List.mem_map] at hl
      obtain ⟨ch, hch, rfl⟩ := hl
      exact digitVal_lt_ten (List.all_eq_true.mp hu ch hch)
    have e1 := Nat.digits_ofDigits 10 (by norm_num) (((c :: cs).map digitVal).reverse)
      (hmem _ hds) (hlast c cs hc1)
    have e2 := Nat.digits_ofDigits 10 (by norm_num) (((d :: ds).map digitVal).reverse)
      (hmem _ hdt) (hlast d ds hd1)
    rw [natOfDigitStr_eq, natOfDigitStr_eq] at h
    rw [h] at e1
    have : ((c :: cs).map digitVal).reverse = ((d :: ds).map digitVal).reverse :=
      e1.symm.trans e2
    have hmap : (c :: cs).map digitVal = (d :: ds).map digitVal :=
      List.reverse_injective this
    exact map_digitVal_inj hds hdt hmap

/-! ## `joinDots` -/

theorem joinDots_nil : joinDots [] = [] := rfl

theorem joinDots_single (a : Str) : joinDots [a] = a := by
  simp [joinDots, List.intercalate]

theorem joinDots_cons_cons (a b : Str) (l : List Str) :
    joinDots (a :: b :: l) = a ++ '.' :: joinDots (b :: l) := by
  simp [joinDots, List.intercalate, List.intersperse_cons_cons]

theorem joinDots_splitOn (p : Str) : joinDots (p.splitOn '.') = p := by
  unfold joinDots
  exact List.intercalate_splitOn p '.'

/-! ## `_nat_cmp` refines `specPreCmp` -/

theorem firstNonzero_cons (x : Int) (xs : List Int) (d : Int) :
    firstNonzero (x :: xs) d = if x = 0 then firstNonzero xs d else x := rfl

theorem isPreId_ne_nil {s : Str} (h : isPreId s = true) : s ≠ [] := by
  cases s with
  | nil => exact absurd h (by simp [isPreId])
  | cons c cs => exact List.cons_ne_nil c cs

theorem joinDots_cons_length_pos {q : Str} (l : List Str) (hq : q ≠ []) :
    0 < (joinDots (q :: l)).length := by
  cases l with
  | nil =>
    rw [joinDots_single]
    exact List.length_pos.mpr hq
  | cons b bs =>
    rw [joinDots_cons_cons, List.length_append, List.length_cons]
    omega

theorem joinDots_cons_cons_length (a b : Str) (l : List Str) :
    (joinDots (a :: b :: l)).length = a.length + 1 + (joinDots (b :: l)).length := by
  rw [joinDots_cons_cons, List.length_append, List.length_cons]
  omega

/-- How `classifyId` can evaluate, with the defining condition. -/
theorem classifyId_cases (s : Str) :
    (classifyId s = .num (natOfDigitStr s) ∧ (!s.isEmpty && s.all isDigitC) = true)
      ∨ (classifyId s = .alnum s ∧ (!s.isEmpty && s.all isDigitC) = false) := by
  unfold classifyId
  by_cases h : (!s.isEmpty && s.all isDigitC) = true
  · exact Or.inl ⟨by rw [if_pos h], h⟩
  · exact Or.inr ⟨by rw [if_neg h], by simpa using h⟩

/-- On valid identifiers, a zero spec comparison forces string equality
(numeric identifiers are canonical decimals, so equal values mean equal
strings). -/
theorem specIdCmp_zero_str {p q : Str}
    (hp : isPreId p = true) (hq : isPreId q = true)
    (h : specIdCmp (classifyId p) (classifyId q) = 0) : p = q := by
  rcases classifyId_cases p with ⟨hcp, hdp⟩ | ⟨hcp, -⟩ <;>
    rcases classifyId_cases q with ⟨hcq, hdq⟩ | ⟨hcq, -⟩ <;>
    rw [hcp, hcq] at h
  · rw [Bool.and_eq_true] at hdp hdq
    exact canonical_nat_inj hp hdp.2 hq hdq.2 (cmpN_eq_zero_iff.mp h)
  · exact absurd h (by simp [specIdCmp])
  · exact absurd h (by simp [specIdCmp])
  · exact strCmp_eq_zero_iff.mp h

/-- The zipped identifier comparison of `_nat_cmp`, with its string-length
default, computes exactly the spec's sequence comparison on valid safe
identifier lists. -/
theorem natCmp_zip_eq_spec : ∀ (ps qs : List Str),
    (∀ x ∈ ps, isPreId x = true ∧ intSafe x = true) →
    (∀ x ∈ qs, isPreId x = true ∧ intSafe x = true) →
    firstNonzero (List.zipWith cmp_prerelease_tag (ps.map convVal) (qs.map convVal))
      (cmpN (joinDots ps).length (joinDots qs).length) = specPreCmp ps qs
  | [], [], _, _ => rfl
  | [], q :: qs, _, hqs => by
    simp only [List.map_nil, List.zipWith_nil_left, firstNonzero, joinDots_nil,
      List.length_nil, specPreCmp]
    have hq := (hqs q (List.mem_cons_self q qs)).1
    have := joinDots_cons_length_pos qs (isPreId_ne_nil hq)
    unfold cmpN
    rw [if_pos this]
  | p :: ps, [], hps, _ => by
    simp only [List.map_nil, List.zipWith_nil_right, firstNonzero, joinDots_nil,
      List.length_nil, specPreCmp]
    have hp := (hps p (List.mem_cons_self p ps)).1
    have := joinDots_cons_length_pos ps (isPreId_ne_nil hp)
    unfold cmpN
    rw [if_neg (by omega), if_pos this]
  | p :: ps, q :: qs, hps, hqs => by
    have hp := hps p (List.mem_cons_self p ps)
    have hq := hqs q (List.mem_cons_self q qs)
    have hps' := fun x hx => hps x (List.mem_cons_of_mem p hx)
    have hqs' := fun x hx => hqs x (List.mem_cons_of_mem q hx)
    rw [List.map_cons, List.map_cons, List.zipWith_cons_cons, firstNonzero_cons,
      specPreCmp_cons_cons, convVal_eq_tagOfSpec hp.2, convVal_eq_tagOfSpec hq.2,
      cmp_tag_eq_specIdCmp]
    by_cases hc : specIdCmp (classifyId p) (classifyId q) = 0
    · rw [if_pos hc, if_pos hc]
      have hpq : p = q := specIdCmp_zero_str hp.1 hq.1 hc
      subst hpq
      cases ps with
      | nil =>
        cases qs with
        | nil =>
          simp only [List.map_nil, List.zipWith_nil_left, firstNonzero, specPreCmp]
          unfold cmpN
          rw [if_neg (by omega), if_neg (by omega)]
        | cons q' qs' =>
          simp only [List.map_nil, List.zipWith_nil_left, firstNonzero, specPreCmp]
          rw [joinDots_single, joinDots_cons_cons_length]
          have hq' := (hqs' q' (List.mem_cons_self q' qs')).1
          have := joinDots_cons_length_pos qs' (isPreId_ne_nil hq')
          unfold cmpN
          rw [if_pos (by omega)]
      | cons p' ps' =>
        cases qs with
        | nil =>
          simp only [List.map_nil, List.zipWith_nil_right, firstNonzero, specPreCmp]
          rw [joinDots_single, joinDots_cons_cons_length]
          have hp' := (hps' p' (List.mem_cons_self p' ps')).1
          have := joinDots_cons_length_pos ps' (isPreId_ne_nil hp')
          unfold cmpN
          rw [if_neg (by omega), if_pos (by omega)]
        | cons q' qs' =>
          rw [joinDots_cons_cons_length, joinDots_cons_cons_length, cmpN_add_left]
          exact natCmp_zip_eq_spec (p' :: ps') (q' :: qs') hps' hqs'
    · rw [if_neg hc, if_neg hc]

/-! ## `nat_cmp` assembly -/

theorem mkVersion_inv {c : Str} {pp bp : Option Str} {v : PyVersion}
    (h : mkVersion c pp bp = some v) :
    v.prerelease = pp ∧ v.build = bp ∧ preOkB pp = true ∧ buildOkB bp = true := by
  unfold mkVersion at h
  split at h
  · split at h <;> rename_i hcond
    · injection h with h
      subst h
      simp only [Bool.and_eq_true] at hcond
      exact ⟨rfl, rfl, hcond.1.2, hcond.2⟩
    · exact absurd h (by simp)
  · exact absurd h (by simp)

theorem parse_version_pre_valid {s : Str} {v : PyVersion} (h : parse_version s = some v) :
    v.prerelease = none
      ∨ ∃ p, v.prerelease = some p ∧ (p.splitOn '.').all isPreId = true := by
  unfold parse_version at h
  obtain ⟨hpre, -, hok, -⟩ := mkVersion_inv h
  rw [hpre]
  cases hc : (splitOnce '-' (splitOnce '+' s).1).2 with
  | none => exact Or.inl rfl
  | some p =>
    rw [hc] at hok
    exact Or.inr ⟨p, rfl, hok⟩

theorem splitOn_ne_nil' (p : Str) : p.splitOn '.' ≠ [] :=
  List.splitOnP_ne_nil _ p

theorem nat_cmp_some_some {p q : Str}
    (hp : (p.splitOn '.').all isPreId = true) (hps : (p.splitOn '.').all intSafe = true)
    (hq : (q.splitOn '.').all isPreId = true) (hqs : (q.splitOn '.').all intSafe = true) :
    nat_cmp (some p) (some q) = .ok (specPreCmp (p.splitOn '.') (q.splitOn '.')) := by
  unfold nat_cmp
  simp only [Option.getD]
  rw [split_key_ok hps, split_key_ok hqs]
  show Except.ok (firstNonzero
      (List.zipWith cmp_prerelease_tag ((p.splitOn '.').map convVal)
        ((q.splitOn '.').map convVal))
      (cmpN p.length q.length))
    = Except.ok (specPreCmp (p.splitOn '.') (q.splitOn '.'))
  rw [show p.length = (joinDots (p.splitOn '.')).length from by rw [joinDots_splitOn],
    show q.length = (joinDots (q.splitOn '.')).length from by rw [joinDots_splitOn]]
  exact congrArg Except.ok (natCmp_zip_eq_spec (p.splitOn '.') (q.splitOn '.')
    (fun x hx => ⟨List.all_eq_true.mp hp x hx, List.all_eq_true.mp hps x hx⟩)
    (fun x hx => ⟨List.all_eq_true.mp hq x hx, List.all_eq_true.mp hqs x hx⟩))

theorem nat_cmp_none_none : nat_cmp none none = .ok 0 := rfl

theorem nat_cmp_none_some {q : Str}
    (hq : (q.splitOn '.').all isPreId = true) (hqs : (q.splitOn '.').all intSafe = true) :
    ∃ n, nat_cmp none (some q) = .ok n ∧ n ≠ 0 := by
  unfold nat_cmp
  simp only [Option.getD]
  rw [show split_key [] = Except.ok [(Sum.inr [] : Tag)] from rfl, split_key_ok hqs]
  obtain ⟨q0, qs', hsplit⟩ : ∃ a l, q.splitOn '.' = a :: l := by
    cases hcase : q.splitOn '.' with
    | nil => exact absurd hcase (splitOn_ne_nil' q)
    | cons a l => exact ⟨a, l, rfl⟩
  have hq0 : isPreId q0 = true :=
    List.all_eq_true.mp hq q0 (by rw [hsplit]; exact List.mem_cons_self q0 qs')
  have hq0s : intSafe q0 = true :=
    List.all_eq_true.mp hqs q0 (by rw [hsplit]; exact List.mem_cons_self q0 qs')
  rw [hsplit]
  show ∃ n, Except.ok (firstNonzero
      (List.zipWith cmp_prerelease_tag [(Sum.inr [] : Tag)] ((q0 :: qs').map convVal))
      (cmpN ([] : Str).length q.length)) = Except.ok n ∧ n ≠ 0
  rw [List.map_cons]
  show ∃ n, Except.ok (firstNonzero
      [cmp_prerelease_tag ((Sum.inr [] : Tag)) (convVal q0)] (cmpN 0 q.length)) = Except.ok n ∧ n ≠ 0
  rw [convVal_eq_tagOfSpec hq0s]
  rcases classifyId_cases q0 with ⟨hcq, -⟩ | ⟨hcq, -⟩ <;> rw [hcq]
  · exact ⟨1, rfl, by omega⟩
  · obtain ⟨c, cs, rfl⟩ : ∃ c cs, q0 = c :: cs := by
      cases q0 with
      | nil => exact absurd hq0 (by simp [isPreId])
      | cons c cs => exact ⟨c, cs, rfl⟩
    exact ⟨-1, rfl, by omega⟩

theorem nat_cmp_some_none {p : Str}
    (hp : (p.splitOn '.').all isPreId = true) (hps : (p.splitOn '.').all intSafe = true) :
    ∃ n, nat_cmp (some p) none = .ok n ∧ n ≠ 0 := by
  unfold nat_cmp
  simp only [Option.getD]
  rw [split_key_ok hps, show split_key [] = Except.ok [(Sum.inr [] : Tag)] from rfl]
  obtain ⟨p0, ps', hsplit⟩ : ∃ a l, p.splitOn '.' = a :: l := by
    cases hcase : p.splitOn '.' with
    | nil => exact absurd hcase (splitOn_ne_nil' p)
    | cons a l => exact ⟨a, l, rfl⟩
  have hp0 : isPreId p0 = true :=
    List.all_eq_true.mp hp p0 (by rw [hsplit]; exact List.mem_cons_self p0 ps')
  have hp0s : intSafe p0 = true :=
    List.all_eq_true.mp hps p0 (by rw [hsplit]; exact List.mem_cons_self p0 ps')
  rw [hsplit]
  show ∃ n, Except.ok (firstNonzero
      (List.zipWith cmp_prerelease_tag ((p0 :: ps').map convVal) [(Sum.inr [] : Tag)])
      (cmpN p.length ([] : Str).length)) = Except.ok n ∧ n ≠ 0
  rw [List.map_cons, List.zipWith_cons_cons, List.zipWith_nil_right]
  show ∃ n, Except.ok (firstNonzero
      [cmp_prerelease_tag (convVal p0) ((Sum.inr [] : Tag))] (cmpN p.length 0)) = Except.ok n ∧ n ≠ 0
  rw [convVal_eq_tagOfSpec hp0s]
  rcases classifyId_cases p0 with ⟨hcp, -⟩ | ⟨hcp, -⟩ <;> rw [hcp]
  · exact ⟨-1, rfl, by omega⟩
  · obtain ⟨c, cs, rfl⟩ : ∃ c cs, p0 = c :: cs := by
      cases p0 with
      | nil => exact absurd hp0 (by simp [isPreId])
      | cons c cs => exact ⟨c, cs, rfl⟩
    exact ⟨1, rfl, by omega⟩

/-! ## `compare_versions` as a three-way key comparison -/

theorem exc_bind_ok {α β : Type} (a : α) (f : α → Except Unit β) :
    (Except.ok a >>= f) = f a := rfl

theorem exc_pure_eq_ok {α : Type} (a : α) : (pure a : Except Unit α) = Except.ok a := rfl

/-- `compare_versions` unfolded on successfully parsed inputs with a
successful prerelease comparison. -/
theorem compare_versions_parsed {s1 s2 : Str} {v1 v2 : PyVersion}
    (h1 : parse_version s1 = some v1) (h2 : parse_version s2 = some v2) {pc : Int}
    (hnc : nat_cmp v1.prerelease v2.prerelease = .ok pc) :
    compare_versions s1 s2 = .ok (
      if cmpN v1.major v2.major ≠ 0 then cmpN v1.major v2.major
      else if cmpN v1.minor v2.minor ≠ 0 then cmpN v1.minor v2.minor
      else if cmpN v1.patch v2.patch ≠ 0 then cmpN v1.patch v2.patch
      else if pc = 0 then 0
      else if preFalsy v1.prerelease then 1
      else if preFalsy v2.prerelease then -1
      else pc) := by
  unfold compare_versions
  by_cases hM : cmpN v1.major v2.major ≠ 0 <;>
    by_cases hm : cmpN v1.minor v2.minor ≠ 0 <;>
      by_cases hp : cmpN v1.patch v2.patch ≠ 0 <;>
        by_cases hpc : pc = 0 <;>
          by_cases hf1 : preFalsy v1.prerelease <;>
            by_cases hf2 : preFalsy v2.prerelease <;>
              simp [h1, h2, hnc, hM, hm, hp, hpc, hf1, hf2, exc_bind_ok, exc_pure_eq_ok]

theorem cmpK_of_lt {α : Type} [LinearOrder α] {a b : α} (h : a < b) : cmpK a b = -1 := by
  unfold cmpK; rw [if_pos h]

theorem cmpK_of_gt {α : Type} [LinearOrder α] {a b : α} (h : b < a) : cmpK a b = 1 := by
  unfold cmpK; rw [if_neg (lt_asymm h), if_pos h]

theorem cmpK_of_eq {α : Type} [LinearOrder α] {a b : α} (h : a = b) : cmpK a b = 0 := by
  subst h; unfold cmpK; rw [if_neg (lt_irrefl a), if_neg (lt_irrefl a)]

theorem cmpK_prodLex {β : Type} [LinearOrder β] (a b : Nat) (u w : β) :
    cmpK (toLex (a, u)) (toLex (b, w))
      = if cmpN a b ≠ 0 then cmpN a b else cmpK u w := by
  rcases lt_trichotomy a b with h | h | h
  · rw [cmpK_of_lt ((Prod.Lex.lt_iff _ _).mpr (Or.inl h))]
    have hc : cmpN a b = -1 := by unfold cmpN; rw [if_pos h]
    rw [hc, if_pos (by omega)]
  · subst h
    have hz : cmpN a a = 0 := cmpN_eq_zero_iff.mpr rfl
    rw [hz, if_neg (by omega)]
    rcases lt_trichotomy u w with h' | h' | h'
    · rw [cmpK_of_lt ((Prod.Lex.lt_iff (a, u) (a, w)).mpr (Or.inr ⟨rfl, h'⟩)), cmpK_of_lt h']
    · subst h'; rw [cmpK_of_eq rfl, cmpK_of_eq rfl]
    · rw [cmpK_of_gt ((Prod.Lex.lt_iff (a, w) (a, u)).mpr (Or.inr ⟨rfl, h'⟩)), cmpK_of_gt h']
  · rw [cmpK_of_gt ((Prod.Lex.lt_iff _ _).mpr (Or.inl h))]
    have hc : cmpN a b = 1 := by unfold cmpN; rw [if_neg (by omega), if_pos h]
    rw [hc, if_pos (by omega)]

theorem specPreCmp_eq_cmpK (ps qs : List Str) :
    specPreCmp ps qs = cmpK ((ps.map idKey : List IdKey)) (qs.map idKey) := by
  rcases specPreCmp_range ps qs with h | h | h <;> rw [h]
  · exact (cmpK_of_lt (specPreCmp_neg_iff.mp (by omega))).symm
  · exact (cmpK_of_eq (specPreCmp_zero_iff.mp h)).symm
  · have hnlt : ¬ ((ps.map idKey : List IdKey) < qs.map idKey) := fun hl => by
      have := specPreCmp_neg_iff.mpr hl
      omega
    have hne : (ps.map idKey : List IdKey) ≠ qs.map idKey := fun he => by
      have := specPreCmp_zero_iff.mpr he
      omega
    rcases lt_trichotomy ((ps.map idKey : List IdKey)) (qs.map idKey) with h' | h' | h'
    · exact absurd h' hnlt
    · exact absurd h' hne
    · exact (cmpK_of_gt h').symm

theorem cmpK_withTop_coe {α : Type} [LinearOrder α] (u w : α) :
    cmpK ((u : WithTop α)) ((w : WithTop α)) = cmpK u w := by
  rcases lt_trichotomy u w with h | h | h
  · rw [cmpK_of_lt (WithTop.coe_lt_coe.mpr h), cmpK_of_lt h]
  · subst h; rw [cmpK_of_eq rfl, cmpK_of_eq rfl]
  · rw [cmpK_of_gt (WithTop.coe_lt_coe.mpr h), cmpK_of_gt h]

theorem splitOn_all_preId_ne_nil {p : Str} (h : (p.splitOn '.').all isPreId = true) :
    p ≠ [] := by
  intro hp
  subst hp
  exact absurd h (by decide)

theorem preFalsy_some_false {p : Str} (h : p ≠ []) : preFalsy (some p) = false := by
  unfold preFalsy
  simpa [List.isEmpty_eq_false]

theorem preKey_none : preKey none = ⊤ := rfl

theorem preKey_some (p : Str) :
    preKey (some p) = (((p.splitOn '.').map idKey : List IdKey) : PreKey) := rfl

theorem ifcore_congr {A B C t1 t2 : Int} (h : t1 = t2) :
    (if A ≠ 0 then A else if B ≠ 0 then B else if C ≠ 0 then C else t1)
      = (if A ≠ 0 then A else if B ≠ 0 then B else if C ≠ 0 then C else t2) := by
  rw [h]

/-- The bridge: on parsed, `convert`-safe inputs, `compare_versions` computes
the three-way comparison of the lexicographic version keys. -/
theorem compare_eq_cmpK {x y : Str} {vx vy : PyVersion}
    (hx : parse_version x = some vx) (hy : parse_version y = some vy)
    (hsx : preSafe vx.prerelease = true) (hsy : preSafe vy.prerelease = true) :
    compare_versions x y = .ok (cmpK (verKey x) (verKey y)) := by
  have hkx : verKey x = pvKey vx := by unfold verKey; rw [hx]
  have hky : verKey y = pvKey vy := by unfold verKey; rw [hy]
  rw [hkx, hky]
  have hkey : cmpK (pvKey vx) (pvKey vy)
      = (if cmpN vx.major vy.major ≠ 0 then cmpN vx.major vy.major
        else if cmpN vx.minor vy.minor ≠ 0 then cmpN vx.minor vy.minor
        else if cmpN vx.patch vy.patch ≠ 0 then cmpN vx.patch vy.patch
        else cmpK (preKey vx.prerelease) (preKey vy.prerelease)) := by
    unfold pvKey
    rw [cmpK_prodLex, cmpK_prodLex, cmpK_prodLex]
  rw [hkey]
  rcases hpv1 : vx.prerelease with _ | p <;> rcases hpv2 : vy.prerelease with _ | q
  · -- no prerelease on either side
    have hnc : nat_cmp vx.prerelease vy.prerelease = .ok 0 := by
      rw [hpv1, hpv2]; exact nat_cmp_none_none
    rw [compare_versions_parsed hx hy hnc]
    refine congrArg Except.ok ?_
    exact ifcore_congr (by rw [if_pos rfl, cmpK_of_eq rfl])
  · -- release versus prerelease
    have hqval : (q.splitOn '.').all isPreId = true := by
      rcases parse_version_pre_valid hy with h0 | ⟨q', hq', hval⟩
      · rw [hpv2] at h0; exact absurd h0 (by simp)
      · rw [hpv2] at hq'; injection hq' with hq'; rw [hq']; exact hval
    have hqsafe : (q.splitOn '.').all intSafe = true := by rw [hpv2] at hsy; exact hsy
    obtain ⟨n, hnc0, hn0⟩ := nat_cmp_none_some hqval hqsafe
    have hnc : nat_cmp vx.prerelease vy.prerelease = .ok n := by
      rw [hpv1, hpv2]; exact hnc0
    rw [compare_versions_parsed hx hy hnc]
    refine congrArg Except.ok ?_
    refine ifcore_congr ?_
    rw [hpv1, hpv2, if_neg hn0, show preFalsy none = true from rfl, if_pos rfl,
      preKey_none, preKey_some]
    exact (cmpK_of_gt (WithTop.coe_lt_top _)).symm
  · -- prerelease versus release
    have hpval : (p.splitOn '.').all isPreId = true := by
      rcases parse_version_pre_valid hx with h0 | ⟨p', hp', hval⟩
      · rw [hpv1] at h0; exact absurd h0 (by simp)
      · rw [hpv1] at hp'; injection hp' with hp'; rw [hp']; exact hval
    have hpsafe : (p.splitOn '.').all intSafe = true := by rw [hpv1] at hsx; exact hsx
    obtain ⟨n, hnc0, hn0⟩ := nat_cmp_some_none hpval hpsafe
    have hnc : nat_cmp vx.prerelease vy.prerelease = .ok n := by
      rw [hpv1, hpv2]; exact hnc0
    rw [compare_versions_parsed hx hy hnc]
    refine congrArg Except.ok ?_
    refine ifcore_congr ?_
    rw [hpv1, hpv2, if_neg hn0, preFalsy_some_false (splitOn_all_preId_ne_nil hpval),
      if_neg (by simp), show preFalsy none = true from rfl, if_pos rfl,
      preKey_none, preKey_some]
    exact (cmpK_of_lt (WithTop.coe_lt_top _)).symm
  · -- both prereleases
    have hpval : (p.splitOn '.').all isPreId = true := by
      rcases parse_version_pre_valid hx with h0 | ⟨p', hp', hval⟩
      · rw [hpv1] at h0; exact absurd h0 (by simp)
      · rw [hpv1] at hp'; injection hp' with hp'; rw [hp']; exact hval
    have hqval : (q.splitOn '.').all isPreId = true := by
      rcases parse_version_pre_valid hy with h0 | ⟨q', hq', hval⟩
      · rw [hpv2] at h0; exact absurd h0 (by simp)
      · rw [hpv2] at hq'; injection hq' with hq'; rw [hq']; exact hval
    have hpsafe : (p.splitOn '.').all intSafe = true := by rw [hpv1] at hsx; exact hsx
    have hqsafe : (q.splitOn '.').all intSafe = true := by rw [hpv2] at hsy; exact hsy
    have hnc : nat_cmp vx.prerelease vy.prerelease
        = .ok (specPreCmp (p.splitOn '.') (q.splitOn '.')) := by
      rw [hpv1, hpv2]; exact nat_cmp_some_some hpval hpsafe hqval hqsafe
    rw [compare_versions_parsed hx hy hnc]
    refine congrArg Except.ok ?_
    refine ifcore_congr ?_
    rw [hpv1, hpv2,
      preFalsy_some_false (splitOn_all_preId_ne_nil hpval),
      preFalsy_some_false (splitOn_all_preId_ne_nil hqval)]
    rw [preKey_some, preKey_some, cmpK_withTop_coe, ← specPreCmp_eq_cmpK]
    by_cases hz : specPreCmp (p.splitOn '.') (q.splitOn '.') = 0
    · rw [if_pos hz, hz]
    · rw [if_neg hz, if_neg (by simp), if_neg (by simp)]

/-! ## The sort seen through version keys -/

theorem cmpK_neg_iff {α : Type} [LinearOrder α] {a b : α} : cmpK a b < 0 ↔ a < b := by
  rcases lt_trichotomy a b with h | h | h
  · rw [cmpK_of_lt h]; exact ⟨fun _ => h, fun _ => by omega⟩
  · rw [cmpK_of_eq h]
    exact ⟨fun hc => absurd hc (by omega), fun hc => absurd hc (h ▸ lt_irrefl a)⟩
  · rw [cmpK_of_gt h]
    exact ⟨fun hc => absurd hc (by omega), fun hc => absurd hc (lt_asymm h)⟩

theorem cmpK_zero_iff {α : Type} [LinearOrder α] {a b : α} : cmpK a b = 0 ↔ a = b := by
  rcases lt_trichotomy a b with h | h | h
  · rw [cmpK_of_lt h]
    exact ⟨fun hc => absurd hc (by omega), fun hc => absurd hc (ne_of_lt h)⟩
  · rw [cmpK_of_eq h]; exact ⟨fun _ => h, fun _ => rfl⟩
  · rw [cmpK_of_gt h]
    exact ⟨fun hc => absurd hc (by omega), fun hc => absurd hc (ne_of_gt h)⟩

theorem semverLt_good {x y : Str} (hx : Good x) (hy : Good y) :
    semverLt x y = .ok (decide (verKey x < verKey y)) := by
  obtain ⟨vx, hpx, hsx⟩ := hx
  obtain ⟨vy, hpy, hsy⟩ := hy
  unfold semverLt
  rw [compare_eq_cmpK hpx hpy hsx hsy]
  show Except.ok (decide (cmpK (verKey x) (verKey y) < 0)) = _
  by_cases h : verKey x < verKey y
  · rw [decide_eq_true (cmpK_neg_iff.mpr h), decide_eq_true h]
  · rw [decide_eq_false (fun hc => h (cmpK_neg_iff.mp hc)), decide_eq_false h]

/-- Pure counterpart of `insertSorted` when every comparison succeeds. -/
def insK (x : Str) : List Str → List Str
  | [] => [x]
  | y :: ys => if verKey x < verKey y then x :: y :: ys else y :: insK x ys

/-- Pure counterpart of `pySorted`. -/
def sortK (l : List Str) : List Str := l.foldl (fun acc x => insK x acc) []

theorem insK_perm (x : Str) : ∀ acc : List Str, (insK x acc).Perm (x :: acc)
  | [] => List.Perm.refl _
  | y :: ys => by
    unfold insK
    split
    · exact List.Perm.refl _
    · exact ((insK_perm x ys).cons y).trans (List.Perm.swap x y ys)

theorem insertSorted_eq_insK {x : Str} (hx : Good x) :
    ∀ acc : List Str, (∀ y ∈ acc, Good y) → insertSorted x acc = .ok (insK x acc)
  | [], _ => rfl
  | y :: ys, h => by
    have hy := h y (List.mem_cons_self y ys)
    have hys := fun z hz => h z (List.mem_cons_of_mem y hz)
    unfold insertSorted insK
    rw [semverLt_good hx hy]
    by_cases hk : verKey x < verKey y
    · simp [exc_bind_ok, hk, exc_pure_eq_ok]
    · simp only [exc_bind_ok, decide_eq_false hk, Bool.false_eq_true, if_false]
      rw [insertSorted_eq_insK hx ys hys]
      simp only [exc_bind_ok, exc_pure_eq_ok]
      rw [if_neg hk]

theorem pySorted_go {l : List Str} (hl : ∀ x ∈ l, Good x) :
    ∀ acc : List Str, (∀ y ∈ acc, Good y) →
      l.foldlM (fun acc x => insertSorted x acc) acc
        = .ok (l.foldl (fun acc x => insK x acc) acc) := by
  induction l with
  | nil => intro acc _; rfl
  | cons x xs ih =>
    intro acc hacc
    have hx := hl x (List.mem_cons_self x xs)
    have hxs := fun z hz => hl z (List.mem_cons_of_mem x hz)
    rw [List.foldlM_cons, insertSorted_eq_insK hx acc hacc]
    have hacc' : ∀ y ∈ insK x acc, Good y := fun y hy => by
      rcases List.mem_cons.mp ((insK_perm x acc).mem_iff.mp hy) with h | h
      · exact h ▸ hx
      · exact hacc y h
    rw [List.foldl_cons]
    calc (Except.ok (insK x acc) >>= fun s => xs.foldlM (fun acc x => insertSorted x acc) s)
        = xs.foldlM (fun acc x => insertSorted x acc) (insK x acc) := rfl
      _ = .ok (xs.foldl (fun acc x => insK x acc) (insK x acc)) := ih hxs (insK x acc) hacc'

theorem pySorted_eq_sortK {l : List Str} (hl : ∀ x ∈ l, Good x) :
    pySorted l = .ok (sortK l) :=
  pySorted_go hl [] (by intro y hy; cases hy)

theorem sortK_perm (l : List Str) : (sortK l).Perm l := by
  suffices h : ∀ acc : List Str,
      (l.foldl (fun acc x => insK x acc) acc).Perm (l ++ acc) by
    simpa [sortK] using h []
  induction l with
  | nil => intro acc; simp
  | cons x xs ih =>
    intro acc
    rw [List.foldl_cons]
    refine (ih (insK x acc)).trans ?_
    exact (List.Perm.append_left xs (insK_perm x acc)).trans List.perm_middle

theorem insK_sorted {x : Str} {acc : List Str}
    (h : acc.Pairwise (fun a b => verKey a ≤ verKey b)) :
    (insK x acc).Pairwise (fun a b => verKey a ≤ verKey b) := by
  induction acc with
  | nil => simp [insK]
  | cons y ys ih =>
    rw [List.pairwise_cons] at h
    unfold insK
    split <;> rename_i hk
    · rw [List.pairwise_cons]
      constructor
      · intro z hz
        rcases List.mem_cons.mp hz with rfl | hz
        · exact le_of_lt hk
        · exact le_trans (le_of_lt hk) (h.1 z hz)
      · exact List.Pairwise.cons h.1 h.2
    · rw [List.pairwise_cons]
      constructor
      · intro z hz
        rcases List.mem_cons.mp ((insK_perm x ys).mem_iff.mp hz) with rfl | hzy
        · exact le_of_not_lt hk
        · exact h.1 z hzy
      · exact ih h.2

theorem sortK_sorted (l : List Str) :
    (sortK l).Pairwise (fun a b => verKey a ≤ verKey b) := by
  suffices h : ∀ acc : List Str, acc.Pairwise (fun a b => verKey a ≤ verKey b) →
      (l.foldl (fun acc x => insK x acc) acc).Pairwise (fun a b => verKey a ≤ verKey b) by
    exact h [] (by simp)
  induction l with
  | nil => intro acc hacc; simpa [List.foldl_nil]
  | cons x xs ih =>
    intro acc hacc
    rw [List.foldl_cons]
    exact ih (insK x acc) (insK_sorted hacc)

/-- Two key-sorted permutations of each other, over elements with pairwise
distinct keys, are equal. -/
theorem sorted_perm_eq : ∀ {l₁ l₂ : List Str},
    l₁.Perm l₂ →
    (∀ x ∈ l₁, ∀ y ∈ l₁, verKey x = verKey y → x = y) →
    l₁.Pairwise (fun a b => verKey a ≤ verKey b) →
    l₂.Pairwise (fun a b => verKey a ≤ verKey b) →
    l₁ = l₂
  | [], l₂, hperm, _, _, _ => (List.Perm.nil_eq hperm).symm.symm
  | a :: t₁, l₂, hperm, hinj, h₁, h₂ => by
    cases l₂ with
    | nil => exact absurd hperm.symm (by simp)
    | cons b t₂ =>
      rw [List.pairwise_cons] at h₁ h₂
      by_cases hab : a = b
      · subst hab
        have htp := hperm.cons_inv
        have := sorted_perm_eq htp
          (fun x hx y hy h => hinj x (List.mem_cons_of_mem a hx) y (List.mem_cons_of_mem a hy) h)
          h₁.2 h₂.2
        rw [this]
      · exfalso
        have hainl2 : a ∈ b :: t₂ := hperm.mem_iff.mp (List.mem_cons_self a t₁)
        have hbinl1 : b ∈ a :: t₁ := hperm.symm.mem_iff.mp (List.mem_cons_self b t₂)
        have hat2 : a ∈ t₂ := by
          rcases hainl2 with _ | h
          · exact absurd rfl hab
          · assumption
        have hbt1 : b ∈ t₁ := by
          rcases hbinl1 with _ | h
          · exact absurd rfl (fun h' => hab h'.symm)
          · assumption
        have hab1 : verKey a ≤ verKey b := h₁.1 b hbt1
        have hab2 : verKey b ≤ verKey a := h₂.1 a hat2
        exact hab (hinj a (List.mem_cons_self a t₁) b (List.mem_cons_of_mem a hbt1)
          (le_antisymm hab1 hab2))

theorem cmpK_range {α : Type} [LinearOrder α] (a b : α) :
    cmpK a b = -1 ∨ cmpK a b = 0 ∨ cmpK a b = 1 := by
  rcases lt_trichotomy a b with h | h | h
  · exact Or.inl (cmpK_of_lt h)
  · exact Or.inr (Or.inl (cmpK_of_eq h))
  · exact Or.inr (Or.inr (cmpK_of_gt h))

/-! ## Claim theorems -/

/-- C1: `file_hash` reads a single 65536-byte block and never loops, so for a
65537-byte file the bytes fed to the hasher are only the first 65536 bytes:
the computed md5/sha256 digests do not cover the file's full byte content
(two different files share one ChecksumSet), contrary to the claim that
`digest(filePath)` hashes the full content for files of any size. -/
theorem C1_file_hash_truncates_large_files :
    file_hash_input (List.replicate 65537 0) = List.replicate 65536 0
    ∧ List.replicate 65537 (0 : Nat) ≠ List.replicate 65536 (0 : Nat)
    ∧ file_sums (List.replicate 65537 0) = file_sums (List.replicate 65536 0) := by
  have h1 : file_hash_input (List.replicate 65537 0) = List.replicate 65536 0 := by
    rw [file_hash_input, List.take_replicate]
    norm_num
  have h1' : file_hash_input (List.replicate 65536 0) = List.replicate 65536 0 := by
    rw [file_hash_input, List.take_replicate]
    norm_num
  refine ⟨h1, ?_, ?_⟩
  · intro h
    have h2 := congrArg List.length h
    rw [List.length_replicate, List.length_replicate] at h2
    omega
  · unfold file_sums
    rw [h1, h1']

/-- C3 (counterexample): `"1.0.0-1a"` matches the SemVer grammar, yet
`compare_versions` raises (`convert` calls `int('1a')`), so `compare` is not
total on grammar-valid inputs. -/
theorem C3_counterexample_digit_leading_identifier :
    (parse_version (str "1.0.0-1a")).isSome = true
    ∧ compare_versions (str "1.0.0-1a") (str "1.0.0-1a") = .error () :=
  ⟨rfl, rfl⟩

/-- C3 (amended): `compare` is total — returning one of −1, 0, 1 — on every
pair of grammar-valid version strings whose digit-leading prerelease
identifiers are purely numeric (the inputs `convert` can handle). -/
theorem C3_compare_total_on_safe_inputs (a b : Str) (va vb : PyVersion)
    (ha : parse_version a = some va) (hb : parse_version b = some vb)
    (hsa : preSafe va.prerelease = true) (hsb : preSafe vb.prerelease = true) :
    ∃ n, compare_versions a b = .ok n ∧ (n = -1 ∨ n = 0 ∨ n = 1) := by
  rw [compare_eq_cmpK ha hb hsa hsb]
  exact ⟨cmpK (verKey a) (verKey b), rfl, cmpK_range _ _⟩

/-- C3 witness: the amended totality theorem applied to a concrete pair. -/
theorem C3_totality_witness :
    ∃ n, compare_versions (str "1.0.0-alpha") (str "1.0.0") = .ok n
      ∧ (n = -1 ∨ n = 0 ∨ n = 1) :=
  C3_compare_total_on_safe_inputs (str "1.0.0-alpha") (str "1.0.0")
    ⟨1, 0, 0, some (str "alpha"), none⟩ ⟨1, 0, 0, none, none⟩ rfl rfl rfl rfl

/-- C5 (counterexample): `"1.0.0+a"` and `"1.0.0+b"` are valid, distinct,
equal-precedence version strings (they differ only in build metadata, and
`compare_versions` deems them equal); they are NOT collapsed as duplicates,
and the stable sort returns the two permutations of this input in different
orders, so sorting is not permutation-invariant. -/
theorem C5_counterexample_equal_precedence_order_dependent :
    [str "1.0.0+a", str "1.0.0+b"].Perm [str "1.0.0+b", str "1.0.0+a"]
    ∧ (parse_version (str "1.0.0+a")).isSome = true
    ∧ (parse_version (str "1.0.0+b")).isSome = true
    ∧ compare_versions (str "1.0.0+a") (str "1.0.0+b") = .ok 0
    ∧ str "1.0.0+a" ≠ str "1.0.0+b"
    ∧ pySorted [str "1.0.0+a", str "1.0.0+b"] = .ok [str "1.0.0+a", str "1.0.0+b"]
    ∧ pySorted [str "1.0.0+b", str "1.0.0+a"] = .ok [str "1.0.0+b", str "1.0.0+a"]
    ∧ pySorted [str "1.0.0+a", str "1.0.0+b"] ≠ pySorted [str "1.0.0+b", str "1.0.0+a"] :=
  ⟨List.Perm.swap _ _ _, rfl, rfl, rfl, by decide, rfl, rfl, by
    intro h
    rw [show pySorted [str "1.0.0+a", str "1.0.0+b"]
          = .ok [str "1.0.0+a", str "1.0.0+b"] from rfl,
      show pySorted [str "1.0.0+b", str "1.0.0+a"]
          = .ok [str "1.0.0+b", str "1.0.0+a"] from rfl] at h
    injection h with h
    exact absurd h (by decide)⟩

/-- C5 (amended): on collections of grammar-valid, `convert`-safe version
strings in which no two distinct strings have equal precedence, sorting with
`SemverKeySort` yields the same output for every permutation of the input. -/
theorem C5_sort_permutation_invariant_on_distinct_precedence
    (l₁ l₂ : List Str) (hperm : l₁.Perm l₂)
    (hgood : ∀ x ∈ l₁, Good x)
    (hdist : ∀ x ∈ l₁, ∀ y ∈ l₁, compare_versions x y = .ok 0 → x = y) :
    pySorted l₁ = pySorted l₂ := by
  have hgood₂ : ∀ x ∈ l₂, Good x := fun x hx => hgood x (hperm.symm.mem_iff.mp hx)
  rw [pySorted_eq_sortK hgood, pySorted_eq_sortK hgood₂]
  refine congrArg Except.ok ?_
  have hmem₁ : ∀ x ∈ sortK l₁, x ∈ l₁ := fun x hx => (sortK_perm l₁).mem_iff.mp hx
  refine sorted_perm_eq ((sortK_perm l₁).trans (hperm.trans (sortK_perm l₂).symm))
    ?_ (sortK_sorted l₁) (sortK_sorted l₂)
  intro x hx y hy hk
  have hx₁ := hmem₁ x hx
  have hy₁ := hmem₁ y hy
  obtain ⟨vx, hpx, hsx⟩ := hgood x hx₁
  obtain ⟨vy, hpy, hsy⟩ := hgood y hy₁
  refine hdist x hx₁ y hy₁ ?_
  rw [compare_eq_cmpK hpx hpy hsx hsy, cmpK_of_eq hk]

/-- C5 witness: the amended theorem applied to a concrete two-element
permutation with distinct precedences. -/
theorem C5_invariance_witness :
    pySorted [str "1.0.0", str "2.0.0"] = pySorted [str "2.0.0", str "1.0.0"] :=
  C5_sort_permutation_invariant_on_distinct_precedence _ _ (List.Perm.swap _ _ _)
    (by
      intro x hx
      rcases List.mem_cons.mp hx with rfl | hx
      · exact ⟨⟨1, 0, 0, none, none⟩, rfl, rfl⟩
      rcases List.mem_cons.mp hx with rfl | hx
      · exact ⟨⟨2, 0, 0, none, none⟩, rfl, rfl⟩
      · cases hx)
    (by
      intro x hx y hy h
      rcases List.mem_cons.mp hx with rfl | hx
      · rcases List.mem_cons.mp hy with rfl | hy
        · rfl
        · rcases List.mem_cons.mp hy with rfl | hy
          · rw [show compare_versions (str "1.0.0") (str "2.0.0") = .ok (-1) from rfl] at h
            injection h with h
            omega
          · cases hy
      · rcases List.mem_cons.mp hx with rfl | hx
        · rcases List.mem_cons.mp hy with rfl | hy
          · rw [show compare_versions (str "2.0.0") (str "1.0.0") = .ok 1 from rfl] at h
            injection h with h
            omega
          · rcases List.mem_cons.mp hy with rfl | hy
            · rfl
            · cases hy
        · cases hx)

/-- C6 (counterexample): `"1.0.0-1a"` is a grammar-valid version with a
prerelease, so by the claim `compare("1.0.0", "1.0.0-1a")` should be
`greater`; instead the comparison raises. -/
theorem C6_counterexample_release_vs_digit_leading_prerelease :
    (parse_version (str "1.0.0")).isSome = true
    ∧ (parse_version (str "1.0.0-1a")).isSome = true
    ∧ compare_versions (str "1.0.0") (str "1.0.0-1a") = .error () :=
  ⟨rfl, rfl, rfl⟩

/-- C6 (amended): for grammar-valid, `convert`-safe versions with equal
major.minor.patch, `compare_versions` returns exactly the spec's prerelease
verdict: a release beats any prerelease; two prerelease sequences are
compared identifier-by-identifier (numeric-vs-numeric numerically, numeric
below alphanumeric, lexicographic otherwise) with the shorter sequence lower
on a shared prefix; and the result depends only on the prerelease parts, so
build metadata never changes it. -/
theorem C6_prerelease_ordering_matches_spec (a b : Str) (va vb : PyVersion)
    (ha : parse_version a = some va) (hb : parse_version b = some vb)
    (hsa : preSafe va.prerelease = true) (hsb : preSafe vb.prerelease = true)
    (hmaj : va.major = vb.major) (hmin : va.minor = vb.minor) (hpat : va.patch = vb.patch) :
    compare_versions a b = .ok (
      match va.prerelease, vb.prerelease with
      | none, none => 0
      | none, some _ => 1
      | some _, none => -1
      | some p, some q => specPreCmp (p.splitOn '.') (q.splitOn '.')) := by
  rw [compare_eq_cmpK ha hb hsa hsb]
  refine congrArg Except.ok ?_
  have hkx : verKey a = pvKey va := by unfold verKey; rw [ha]
  have hky : verKey b = pvKey vb := by unfold verKey; rw [hb]
  rw [hkx, hky]
  unfold pvKey
  rw [cmpK_prodLex, if_neg (by rw [cmpN_eq_zero_iff.mpr hmaj]; omega),
    cmpK_prodLex, if_neg (by rw [cmpN_eq_zero_iff.mpr hmin]; omega),
    cmpK_prodLex, if_neg (by rw [cmpN_eq_zero_iff.mpr hpat]; omega)]
  rcases va.prerelease with _ | p <;> rcases vb.prerelease with _ | q
  · exact cmpK_of_eq rfl
  · rw [preKey_none, preKey_some]
    exact cmpK_of_gt (WithTop.coe_lt_top _)
  · rw [preKey_none, preKey_some]
    exact cmpK_of_lt (WithTop.coe_lt_top _)
  · rw [preKey_some, preKey_some, cmpK_withTop_coe, ← specPreCmp_eq_cmpK]

/-- C6 witness: the amended theorem at `1.0.0-alpha.1` vs `1.0.0-alpha.beta`,
whose spec verdict is `less` (numeric identifier below alphanumeric). -/
theorem C6_ordering_witness :
    compare_versions (str "1.0.0-alpha.1") (str "1.0.0-alpha.beta")
      = .ok (specPreCmp ((str "alpha.1").splitOn '.') ((str "alpha.beta").splitOn '.'))
    ∧ specPreCmp ((str "alpha.1").splitOn '.') ((str "alpha.beta").splitOn '.') = -1 :=
  ⟨C6_prerelease_ordering_matches_spec (str "1.0.0-alpha.1") (str "1.0.0-alpha.beta")
      ⟨1, 0, 0, some (str "alpha.1"), none⟩ ⟨1, 0, 0, some (str "alpha.beta"), none⟩
      rfl rfl rfl rfl rfl rfl rfl,
    by decide⟩

/-! ## Scratch-directory accounting (claim C9) -/

theorem bind_def {α β : Type} (x : M α) (f : α → M β) (s : St) :
    (x >>= f) s = match x s with
      | (.ok a, s') => f a s'
      | (.error e, s') => (.error e, s') := rfl

theorem pure_def {α : Type} (a : α) (s : St) : (pure a : M α) s = (.ok a, s) := rfl

/-- An action that never touches the set of live scratch directories. -/
def PreservesScratches {α : Type} (x : M α) : Prop :=
  ∀ s : St, ((x s).2).1.scratches = s.1.scratches

theorem preserves_bind {α β : Type} {x : M α} {f : α → M β}
    (hx : PreservesScratches x) (hf : ∀ a, PreservesScratches (f a)) :
    PreservesScratches (x >>= f) := by
  intro s
  rw [bind_def]
  rcases hres : x s with ⟨r, s'⟩
  have hx' := hx s
  rw [hres] at hx'
  cases r with
  | ok a => exact (hf a s').trans hx'
  | error e => exact hx'

theorem pure_preserves {α : Type} (a : α) : PreservesScratches (pure a : M α) :=
  fun _ => rfl

theorem throwM_preserves {α : Type} (e : Err) : PreservesScratches (throwM e : M α) :=
  fun _ => rfl

theorem getM_preserves : PreservesScratches getM := fun _ => rfl

theorem liftE_preserves {α : Type} (x : Except Err α) : PreservesScratches (liftE x) :=
  fun _ => rfl

theorem ioStep_run (oracle : Nat → Bool) (s : St) :
    (ioStep oracle) s
      = ((if oracle s.2 then Except.ok () else Except.error Err.ioError), (s.1, s.2 + 1)) := by
  show (if oracle s.2 then (pure () : M Unit) else throwM Err.ioError) (s.1, s.2 + 1) = _
  by_cases h : oracle s.2
  · rw [if_pos h, if_pos h]
    rfl
  · rw [if_neg h, if_neg h]
    rfl

theorem writeFile_run (oracle : Nat → Bool) (p : Path) (c : Content) (s : St) :
    (writeFile oracle p c) s
      = if oracle s.2
        then (.ok (), (⟨fsWrite s.1.fs p c, s.1.scratches⟩, s.2 + 1))
        else (.error .ioError, (s.1, s.2 + 1)) := by
  show (ioStep oracle >>= fun _ => _) s = _
  rw [bind_def, ioStep_run]
  by_cases h : oracle s.2
  · rw [if_pos h, if_pos h]
    rfl
  · rw [if_neg h, if_neg h]

theorem ioStep_preserves (oracle : Nat → Bool) : PreservesScratches (ioStep oracle) := by
  intro s
  rw [ioStep_run]

theorem writeFile_preserves (oracle : Nat → Bool) (p : Path) (c : Content) :
    PreservesScratches (writeFile oracle p c) := by
  intro s
  rw [writeFile_run]
  by_cases h : oracle s.2
  · rw [if_pos h]
  · rw [if_neg h]

theorem configGet_preserves (ini : Option (List (Str × Str))) (key : Str) :
    PreservesScratches (configGet ini key) := by
  intro s
  unfold configGet
  split
  · rfl
  · rename_i kvs
    cases hfind : List.find? (fun e => decide (e.1 = key)) kvs with
    | none => rfl
    | some e => rfl

theorem refresh_preserves (oracle : Nat → Bool) (repo : Path) :
    PreservesScratches (refresh_repository oracle repo) := by
  unfold refresh_repository
  refine preserves_bind getM_preserves (fun s0 => ?_)
  refine preserves_bind (liftE_preserves _) (fun db0 => ?_)
  refine preserves_bind (liftE_preserves _) (fun db => ?_)
  refine preserves_bind (writeFile_preserves _ _ _) (fun _ => ?_)
  refine preserves_bind (writeFile_preserves _ _ _) (fun _ => ?_)
  exact preserves_bind (writeFile_preserves _ _ _) (fun _ => pure_preserves _)

theorem installBody_preserves (oracle : Nat → Bool) (arch : Archive) (repo : Path)
    (now : Nat) : PreservesScratches (installBody oracle arch repo now) := by
  unfold installBody
  refine preserves_bind (ioStep_preserves _) (fun _ => ?_)
  refine preserves_bind (configGet_preserves _ _) (fun name => ?_)
  refine preserves_bind (configGet_preserves _ _) (fun group => ?_)
  refine preserves_bind (configGet_preserves _ _) (fun version => ?_)
  refine preserves_bind (ioStep_preserves _) (fun _ => ?_)
  refine preserves_bind (writeFile_preserves _ _ _) (fun _ => ?_)
  refine preserves_bind (writeFile_preserves _ _ _) (fun _ => ?_)
  refine preserves_bind (writeFile_preserves _ _ _) (fun _ => ?_)
  refine preserves_bind (configGet_preserves _ _) (fun description => ?_)
  refine preserves_bind (configGet_preserves _ _) (fun author => ?_)
  refine preserves_bind (configGet_preserves _ _) (fun url => ?_)
  refine preserves_bind (writeFile_preserves _ _ _) (fun _ => ?_)
  refine preserves_bind (writeFile_preserves _ _ _) (fun _ => ?_)
  exact writeFile_preserves _ _ _

theorem le_foldl_max (l : List Nat) : ∀ x ∈ l, x ≤ l.foldl max 0 := by
  suffices h : ∀ (acc : Nat), acc ≤ l.foldl max acc ∧ ∀ x ∈ l, x ≤ l.foldl max acc by
    exact (h 0).2
  induction l with
  | nil => exact fun acc => ⟨le_refl acc, fun x hx => absurd hx (by simp)⟩
  | cons a as ih =>
    intro acc
    rw [List.foldl_cons]
    refine ⟨le_trans (le_max_left acc a) (ih (max acc a)).1, fun x hx => ?_⟩
    rcases List.mem_cons.mp hx with rfl | hx
    · exact le_trans (le_max_right acc x) (ih (max acc x)).1
    · exact (ih (max acc a)).2 x hx

theorem filter_ne_fresh (l : List Nat) :
    l.filter (· ≠ l.foldl max 0 + 1) = l := by
  rw [List.filter_eq_self]
  intro x hx
  have := le_foldl_max l x hx
  simp only [ne_eq, decide_eq_true_eq]
  omega

/-- C9: on every outcome — success, descriptor failure (missing section or
key), or injected I/O failure at any step — `install_plugin` returns with the
set of live scratch directories exactly as it found it: the scratch
directory created by `mkdtemp` is always removed by the `finally` block. -/
theorem C9_scratch_always_removed (oracle : Nat → Bool) (arch : Archive) (repo : Path)
    (now : Nat) (s : St) :
    ((install_plugin oracle arch repo now) s).2.1.scratches = s.1.scratches := by
  unfold install_plugin
  rw [bind_def]
  show ((if ¬ dirExists s.1.fs repo = true then _ else _ : M Unit) s).2.1.scratches = _
  have core : ∀ s1 : St, s1.1.scratches = s.1.scratches →
      (((mkScratch >>= fun tmp =>
        withScratchRemoved tmp (installBody oracle arch repo now)) s1)).2.1.scratches
        = s.1.scratches := by
    intro s1 h1
    rw [bind_def]
    show ((withScratchRemoved (s1.1.scratches.foldl max 0 + 1)
      (installBody oracle arch repo now))
        ({ s1.1 with scratches := s1.1.scratches ++ [s1.1.scratches.foldl max 0 + 1] },
          s1.2)).2.1.scratches = s.1.scratches
    unfold withScratchRemoved
    have hbody := installBody_preserves oracle arch repo now
      ({ s1.1 with scratches := s1.1.scratches ++ [s1.1.scratches.foldl max 0 + 1] }, s1.2)
    simp only at hbody ⊢
    rw [hbody]
    show (s1.1.scratches ++ [s1.1.scratches.foldl max 0 + 1]).filter
        (· ≠ s1.1.scratches.foldl max 0 + 1) = s.1.scratches
    rw [List.filter_append]
    have h2 : (s1.1.scratches).filter (· ≠ s1.1.scratches.foldl max 0 + 1)
        = s1.1.scratches := filter_ne_fresh _
    rw [h2, show ([s1.1.scratches.foldl max 0 + 1] : List Nat).filter
        (· ≠ s1.1.scratches.foldl max 0 + 1) = [] from by simp,
      List.append_nil, h1]
  by_cases hd : dirExists s.1.fs repo
  · rw [if_neg (by rw [hd]; exact fun h => h rfl)]
    exact core s rfl
  · rw [Bool.not_eq_true] at hd
    rw [if_pos (by rw [hd]; exact Bool.false_ne_true)]
    rw [bind_def]
    rcases hres : refresh_repository oracle repo s with ⟨r, s'⟩
    have hpres := refresh_preserves oracle repo s
    rw [hres] at hpres
    cases r with
    | ok a => exact core s' hpres
    | error e => exact hpres

/-! ## Running the ingest pipeline (claims C2, C4, C7) -/

/-- The oracle under which no I/O step fails. -/
def allOk : Nat → Bool := fun _ => true

/-- The six files a fully successful install body writes, in write order. -/
def installWrites (fs : FS) (repo : Path) (g n v desc auth url : Str) (bytes : List Nat)
    (ini : Option (List (Str × Str))) (now : Nat) : FS :=
  let key := pluginKey g n v
  let dir := repo ++ [g, n, v]
  let m : Metadata := { name := n, group := g, version := v, description := desc,
                        author := auth, url := url, install_date := now,
                        hashInp := file_hash_input bytes }
  fsWrite (fsWrite (fsWrite (fsWrite (fsWrite (fsWrite fs
    (dir ++ [key ++ str ".zip.md5"]) (.sidecar ⟨false, .bytes (file_hash_input bytes)⟩))
    (dir ++ [key ++ str ".zip.sha256"]) (.sidecar ⟨true, .bytes (file_hash_input bytes)⟩))
    (dir ++ [key ++ str ".zip"]) (.zipArchive ini bytes))
    (dir ++ [str "metadata.json"]) (.metaFile m))
    (dir ++ [str "metadata.json.md5"]) (.sidecar ⟨false, .ofMeta m⟩))
    (dir ++ [str "metadata.json.sha256"]) (.sidecar ⟨true, .ofMeta m⟩)

/-- The three files already written when a late descriptor key turns out to
be missing: the archive's two sidecars and the archive copy itself. -/
def partialWrites (fs : FS) (repo : Path) (g n v : Str) (bytes : List Nat)
    (ini : Option (List (Str × Str))) : FS :=
  let key := pluginKey g n v
  let dir := repo ++ [g, n, v]
  fsWrite (fsWrite (fsWrite fs
    (dir ++ [key ++ str ".zip.md5"]) (.sidecar ⟨false, .bytes (file_hash_input bytes)⟩))
    (dir ++ [key ++ str ".zip.sha256"]) (.sidecar ⟨true, .bytes (file_hash_input bytes)⟩))
    (dir ++ [key ++ str ".zip"]) (.zipArchive ini bytes)

theorem installBody_success {arch : Archive} {kvs : List (Str × Str)}
    {en eg ev ed ea eu : Str × Str}
    (hini : arch.ini = some kvs)
    (hn : kvs.find? (fun e => decide (e.1 = str "name")) = some en)
    (hg : kvs.find? (fun e => decide (e.1 = str "group")) = some eg)
    (hv : kvs.find? (fun e => decide (e.1 = str "version")) = some ev)
    (hd : kvs.find? (fun e => decide (e.1 = str "description")) = some ed)
    (ha : kvs.find? (fun e => decide (e.1 = str "author")) = some ea)
    (hu : kvs.find? (fun e => decide (e.1 = str "url")) = some eu)
    (repo : Path) (now : Nat) (s : St) :
    (installBody allOk arch repo now) s
      = (.ok (), (⟨installWrites s.1.fs repo eg.2 en.2 ev.2 ed.2 ea.2 eu.2
          arch.bytes arch.ini now, s.1.scratches⟩, s.2 + 8)) := by
  unfold installBody
  rw [hini]
  simp only [bind_def, ioStep_run, writeFile_run, configGet, hn, hg, hv, hd, ha, hu,
    allOk, if_true, installWrites, pure_def]
  rfl

/-- An early missing key (`name`, `group` or `version`) aborts the body with
`MissingField` before anything is written. -/
theorem installBody_missing_early {arch : Archive} {kvs : List (Str × Str)}
    {oracle : Nat → Bool} {k : Str}
    (hini : arch.ini = some kvs)
    (hmiss : (k = str "name" ∧ kvs.find? (fun e => decide (e.1 = str "name")) = none)
      ∨ (k = str "group" ∧ (kvs.find? (fun e => decide (e.1 = str "name"))).isSome = true
          ∧ kvs.find? (fun e => decide (e.1 = str "group")) = none)
      ∨ (k = str "version" ∧ (kvs.find? (fun e => decide (e.1 = str "name"))).isSome = true
          ∧ (kvs.find? (fun e => decide (e.1 = str "group"))).isSome = true
          ∧ kvs.find? (fun e => decide (e.1 = str "version")) = none))
    (repo : Path) (now : Nat) (s : St) (hext : oracle s.2 = true) :
    (installBody oracle arch repo now) s = (.error (.missingField k), (s.1, s.2 + 1)) := by
  unfold installBody
  rw [hini]
  rcases hmiss with ⟨rfl, hm⟩ | ⟨rfl, hn, hm⟩ | ⟨rfl, hn, hg, hm⟩
  · simp only [bind_def, ioStep_run, configGet, hm, hext, if_true]
    rfl
  · obtain ⟨en, hn⟩ := Option.isSome_iff_exists.mp hn
    simp only [bind_def, ioStep_run, configGet, hn, hm, hext, if_true]
    rfl
  · obtain ⟨en, hn⟩ := Option.isSome_iff_exists.mp hn
    obtain ⟨eg, hg⟩ := Option.isSome_iff_exists.mp hg
    simp only [bind_def, ioStep_run, configGet, hn, hg, hm, hext, if_true]
    rfl

/-- A missing `author` key (with `name`, `group`, `version`, `description`
present) aborts the body with `MissingField` only after the archive sidecars
and the archive copy have been written. -/
theorem installBody_missing_author {arch : Archive} {kvs : List (Str × Str)}
    {en eg ev ed : Str × Str}
    (hini : arch.ini = some kvs)
    (hn : kvs.find? (fun e => decide (e.1 = str "name")) = some en)
    (hg : kvs.find? (fun e => decide (e.1 = str "group")) = some eg)
    (hv : kvs.find? (fun e => decide (e.1 = str "version")) = some ev)
    (hd : kvs.find? (fun e => decide (e.1 = str "description")) = some ed)
    (ha : kvs.find? (fun e => decide (e.1 = str "author")) = none)
    (repo : Path) (now : Nat) (s : St) :
    (installBody allOk arch repo now) s
      = (.error (.missingField (str "author")),
          (⟨partialWrites s.1.fs repo eg.2 en.2 ev.2 arch.bytes arch.ini, s.1.scratches⟩,
            s.2 + 5)) := by
  unfold installBody
  rw [hini]
  simp only [bind_def, ioStep_run, writeFile_run, configGet, hn, hg, hv, hd, ha,
    allOk, if_true, partialWrites, pure_def]
  rfl

/-- Lift a body-run equation through `install_plugin`'s scratch handling when
the repository already exists. -/
theorem install_plugin_of_body {oracle : Nat → Bool} {arch : Archive} {repo : Path}
    {now : Nat} {s : St} {r : Except Err Unit} {fs' : FS} {k' : Nat}
    (hrepo : dirExists s.1.fs repo = true)
    (hbody : ∀ w : World, w.fs = s.1.fs →
      (installBody oracle arch repo now) (w, s.2) = (r, (⟨fs', w.scratches⟩, k'))) :
    (install_plugin oracle arch repo now) s = (r, (⟨fs', s.1.scratches⟩, k')) := by
  unfold install_plugin
  rw [bind_def]
  show ((if ¬ dirExists s.1.fs repo = true then _ else _ : M Unit) s) = _
  rw [if_neg (by rw [hrepo]; exact fun h => h rfl)]
  rw [bind_def]
  show (withScratchRemoved (s.1.scratches.foldl max 0 + 1) (installBody oracle arch repo now))
      ((⟨s.1.fs, s.1.scratches ++ [s.1.scratches.foldl max 0 + 1]⟩ : World), s.2) = _
  unfold withScratchRemoved
  rw [hbody ⟨s.1.fs, s.1.scratches ++ [s.1.scratches.foldl max 0 + 1]⟩ rfl]
  simp only
  rw [List.filter_append, filter_ne_fresh,
    show ([s.1.scratches.foldl max 0 + 1] : List Nat).filter
      (· ≠ s.1.scratches.foldl max 0 + 1) = [] from by simp, List.append_nil]

/-! ## Distinguishing the written file names -/

theorem ne_of_rev_get {α : Type} {a b : List α} (i : Nat)
    (h : a.reverse.get? i ≠ b.reverse.get? i) : a ≠ b := fun he => h (by rw [he])

theorem rev_get_append_lit {α : Type} (s t : List α) (i : Nat) (hi : i < t.length) :
    (s ++ t).reverse.get? i = t.reverse.get? i := by
  rw [List.reverse_append, List.get?_append (by simpa using hi)]

theorem append_lit_ne {s t lit₁ lit₂ : Str} (i : Nat) (h₁ : i < lit₁.length)
    (h₂ : i < lit₂.length) (hne : lit₁.reverse.get? i ≠ lit₂.reverse.get? i) :
    s ++ lit₁ ≠ t ++ lit₂ := by
  apply ne_of_rev_get i
  rw [rev_get_append_lit _ _ _ h₁, rev_get_append_lit _ _ _ h₂]
  exact hne

theorem lit_append_lit_ne {s lit₁ lit₂ : Str} (i : Nat) (h₁ : i < lit₁.length)
    (h₂ : i < lit₂.length) (hne : lit₁.reverse.get? i ≠ lit₂.reverse.get? i) :
    s ++ lit₁ ≠ lit₂ := by
  apply ne_of_rev_get i
  rw [rev_get_append_lit _ _ _ h₁, show lit₂.reverse.get? i
    = (([] : Str) ++ lit₂).reverse.get? i from by rw [List.nil_append],
    rev_get_append_lit _ _ _ h₂]
  exact hne

/-- The six filenames of one ingested version are pairwise distinct. -/
theorem installNames_distinct (key : Str) :
    (key ++ str ".zip.md5" ≠ key ++ str ".zip.sha256")
    ∧ (key ++ str ".zip.md5" ≠ key ++ str ".zip")
    ∧ (key ++ str ".zip.sha256" ≠ key ++ str ".zip")
    ∧ (key ++ str ".zip.md5" ≠ str "metadata.json")
    ∧ (key ++ str ".zip.md5" ≠ str "metadata.json.md5")
    ∧ (key ++ str ".zip.md5" ≠ str "metadata.json.sha256")
    ∧ (key ++ str ".zip.sha256" ≠ str "metadata.json")
    ∧ (key ++ str ".zip.sha256" ≠ str "metadata.json.md5")
    ∧ (key ++ str ".zip.sha256" ≠ str "metadata.json.sha256")
    ∧ (key ++ str ".zip" ≠ str "metadata.json")
    ∧ (key ++ str ".zip" ≠ str "metadata.json.md5")
    ∧ (key ++ str ".zip" ≠ str "metadata.json.sha256")
    ∧ ((str "metadata.json" : Str) ≠ str "metadata.json.md5")
    ∧ ((str "metadata.json" : Str) ≠ str "metadata.json.sha256")
    ∧ ((str "metadata.json.md5" : Str) ≠ str "metadata.json.sha256") := by
  refine ⟨?_, ?_, ?_, ?_, ?_, ?_, ?_, ?_, ?_, ?_, ?_, ?_, by decide, by decide, by decide⟩
  · intro h; exact absurd (List.append_cancel_left h) (by decide)
  · intro h; exact absurd (List.append_cancel_left h) (by decide)
  · intro h; exact absurd (List.append_cancel_left h) (by decide)
  · exact lit_append_lit_ne 0 (by decide) (by decide) (by decide)
  · exact lit_append_lit_ne 4 (by decide) (by decide) (by decide)
  · exact lit_append_lit_ne 0 (by decide) (by decide) (by decide)
  · exact lit_append_lit_ne 0 (by decide) (by decide) (by decide)
  · exact lit_append_lit_ne 0 (by decide) (by decide) (by decide)
  · exact lit_append_lit_ne 7 (by decide) (by decide) (by decide)
  · exact lit_append_lit_ne 0 (by decide) (by decide) (by decide)
  · exact lit_append_lit_ne 0 (by decide) (by decide) (by decide)
  · exact lit_append_lit_ne 0 (by decide) (by decide) (by decide)

theorem path_snoc_ne {dir : Path} {x y : Str} (h : x ≠ y) : dir ++ [x] ≠ dir ++ [y] := by
  intro he
  have := List.append_cancel_left he
  injection this with h1 _
  exact h h1

/-! ## Reading the filesystem after writes -/

theorem fsLookup_fsWrite_self (fs : FS) (p : Path) (c : Content) :
    fsLookup (fsWrite fs p c) p = some c := by
  unfold fsLookup fsWrite
  rw [List.find?_cons_of_pos _ (by simp)]
  rfl

theorem find?_filter_ne {fs : FS} {p q : Path} (h : q ≠ p) :
    (fs.filter (fun e => e.1 ≠ p)).find? (fun e => decide (e.1 = q))
      = fs.find? (fun e => decide (e.1 = q)) := by
  induction fs with
  | nil => rfl
  | cons e es ih =>
    by_cases he : e.1 = p
    · rw [List.filter_cons_of_neg (by simpa using he), ih,
        List.find?_cons_of_neg _ (by simp [he]; exact fun hpq => h hpq.symm)]
    · rw [List.filter_cons_of_pos (by simpa using he)]
      by_cases heq : e.1 = q
      · rw [List.find?_cons_of_pos _ (by simpa using heq),
          List.find?_cons_of_pos _ (by simpa using heq)]
      · rw [List.find?_cons_of_neg _ (by simpa using heq),
          List.find?_cons_of_neg _ (by simpa using heq), ih]

theorem fsLookup_fsWrite_other (fs : FS) (p : Path) (c : Content) {q : Path} (h : q ≠ p) :
    fsLookup (fsWrite fs p c) q = fsLookup fs q := by
  unfold fsLookup fsWrite
  rw [List.find?_cons_of_neg _ (by simp; exact fun he => h he.symm), find?_filter_ne h]

theorem partialWrites_metadata_untouched (fs : FS) (repo : Path) (g n v : Str)
    (bytes : List Nat) (ini : Option (List (Str × Str))) :
    fsLookup (partialWrites fs repo g n v bytes ini)
        (repo ++ [g, n, v] ++ [str "metadata.json"])
      = fsLookup fs (repo ++ [g, n, v] ++ [str "metadata.json"]) := by
  obtain ⟨-, -, -, h1m1, -, -, h2m1, -, -, h3m1, -, -, -, -, -⟩ :=
    installNames_distinct (pluginKey g n v)
  unfold partialWrites
  rw [fsLookup_fsWrite_other _ _ _ (path_snoc_ne (Ne.symm h3m1)),
    fsLookup_fsWrite_other _ _ _ (path_snoc_ne (Ne.symm h2m1)),
    fsLookup_fsWrite_other _ _ _ (path_snoc_ne (Ne.symm h1m1))]

/-- The concrete run behind claim C2's counterexample: an existing one-file
repository, and an archive whose descriptor has `name`, `group`, `version`,
`description` and `url` but no `author`. -/
def c2arch : Archive :=
  ⟨some [(str "name", str "plug"), (str "group", str "grp"),
         (str "version", str "1.0.0"), (str "description", str "d"),
         (str "url", str "u")], [7]⟩

def c2st : St :=
  ((⟨[([str "repo", str "plugins.json"], .indexFile ⟨[], []⟩)], []⟩ : World), 0)

def c2run : Except Err Unit × St := install_plugin allOk c2arch [str "repo"] 4 c2st

/-- C2 (counterexample): with the `author` key absent, ingestion does fail
with `MissingField author`, but the destination tree is NOT left unchanged:
the version directory now holds the copied archive and both of its checksum
sidecars (only the metadata record is missing), because `description`,
`author` and `url` are first read after the archive has been placed. -/
theorem C2_counterexample_author_read_after_placement :
    c2run.1 = .error (.missingField (str "author"))
    ∧ fsLookup c2run.2.1.fs
        [str "repo", str "grp", str "plug", str "1.0.0", str "grp.plug-1.0.0.zip"]
      = some (.zipArchive c2arch.ini [7])
    ∧ fsLookup c2run.2.1.fs
        [str "repo", str "grp", str "plug", str "1.0.0", str "grp.plug-1.0.0.zip.md5"]
      = some (.sidecar ⟨false, .bytes [7]⟩)
    ∧ fsLookup c2run.2.1.fs
        [str "repo", str "grp", str "plug", str "1.0.0", str "grp.plug-1.0.0.zip.sha256"]
      = some (.sidecar ⟨true, .bytes [7]⟩)
    ∧ c2run.2.1.fs ≠ c2st.1.fs := by
  refine ⟨rfl, rfl, rfl, rfl, by decide⟩

/-- C2 (amended): a descriptor missing `name`, `group` (the category key) or
`version` makes ingestion fail with `MissingField` before any filesystem
write — for an existing repository the tree is completely unchanged, under
any I/O oracle that lets the extraction step succeed.  A descriptor missing
`author` (with the earlier keys present) also fails with `MissingField`, but
only after the archive's two checksum sidecars and the archive copy have been
written into the version directory; the metadata record is never written. -/
theorem C2_missing_field_atomicity :
    (∀ (oracle : Nat → Bool) (arch : Archive) (kvs : List (Str × Str)) (k : Str)
        (repo : Path) (now : Nat) (s : St),
      arch.ini = some kvs →
      dirExists s.1.fs repo = true →
      oracle s.2 = true →
      ((k = str "name" ∧ kvs.find? (fun e => decide (e.1 = str "name")) = none)
        ∨ (k = str "group" ∧ (kvs.find? (fun e => decide (e.1 = str "name"))).isSome = true
            ∧ kvs.find? (fun e => decide (e.1 = str "group")) = none)
        ∨ (k = str "version" ∧ (kvs.find? (fun e => decide (e.1 = str "name"))).isSome = true
            ∧ (kvs.find? (fun e => decide (e.1 = str "group"))).isSome = true
            ∧ kvs.find? (fun e => decide (e.1 = str "version")) = none)) →
      (install_plugin oracle arch repo now) s = (.error (.missingField k), (s.1, s.2 + 1)))
    ∧ (∀ (arch : Archive) (kvs : List (Str × Str)) (en eg ev ed : Str × Str)
        (repo : Path) (now : Nat) (s : St),
      arch.ini = some kvs →
      dirExists s.1.fs repo = true →
      kvs.find? (fun e => decide (e.1 = str "name")) = some en →
      kvs.find? (fun e => decide (e.1 = str "group")) = some eg →
      kvs.find? (fun e => decide (e.1 = str "version")) = some ev →
      kvs.find? (fun e => decide (e.1 = str "description")) = some ed →
      kvs.find? (fun e => decide (e.1 = str "author")) = none →
      (install_plugin allOk arch repo now) s
        = (.error (.missingField (str "author")),
            (⟨partialWrites s.1.fs repo eg.2 en.2 ev.2 arch.bytes arch.ini,
              s.1.scratches⟩, s.2 + 5))
      ∧ fsLookup (partialWrites s.1.fs repo eg.2 en.2 ev.2 arch.bytes arch.ini)
          (repo ++ [eg.2, en.2, ev.2] ++ [str "metadata.json"])
        = fsLookup s.1.fs (repo ++ [eg.2, en.2, ev.2] ++ [str "metadata.json"])) := by
  constructor
  · intro oracle arch kvs k repo now s hini hrepo hext hmiss
    have : (install_plugin oracle arch repo now) s = (.error (.missingField k), (s.1, s.2 + 1)) := by
      refine install_plugin_of_body hrepo (fun w hw => ?_)
      rw [installBody_missing_early hini hmiss repo now (w, s.2) hext, ← hw]
    exact this
  · intro arch kvs en eg ev ed repo now s hini hrepo hn hg hv hd ha
    refine ⟨?_, partialWrites_metadata_untouched _ _ _ _ _ _ _⟩
    refine install_plugin_of_body hrepo (fun w hw => ?_)
    rw [installBody_missing_author hini hn hg hv hd ha repo now (w, s.2), hw]

/-- C2 witness: the amended theorem applied to a concrete descriptor with
`version` missing (early failure, repository untouched) and to the concrete
missing-`author` descriptor (failure after exactly the three archive files). -/
theorem C2_atomicity_witness :
    (install_plugin allOk
        ⟨some [(str "name", str "plug"), (str "group", str "grp")], [7]⟩
        [str "repo"] 4 c2st)
      = (.error (.missingField (str "version")), (c2st.1, 1))
    ∧ (install_plugin allOk c2arch [str "repo"] 4 c2st)
        = (.error (.missingField (str "author")),
            (⟨partialWrites c2st.1.fs [str "repo"] (str "grp") (str "plug") (str "1.0.0")
              [7] c2arch.ini, c2st.1.scratches⟩, 5)) :=
  ⟨C2_missing_field_atomicity.1 allOk
      ⟨some [(str "name", str "plug"), (str "group", str "grp")], [7]⟩
      [(str "name", str "plug"), (str "group", str "grp")]
      (str "version") [str "repo"] 4 c2st rfl rfl rfl
      (Or.inr (Or.inr ⟨rfl, rfl, rfl, rfl⟩)),
    (C2_missing_field_atomicity.2 c2arch
      [(str "name", str "plug"), (str "group", str "grp"),
       (str "version", str "1.0.0"), (str "description", str "d"),
       (str "url", str "u")]
      (str "name", str "plug") (str "group", str "grp") (str "version", str "1.0.0")
      (str "description", str "d")
      [str "repo"] 4 c2st rfl rfl rfl rfl rfl rfl rfl).1⟩

theorem install_plugin_success {arch : Archive} {kvs : List (Str × Str)}
    {en eg ev ed ea eu : Str × Str}
    (hini : arch.ini = some kvs)
    (hn : kvs.find? (fun e => decide (e.1 = str "name")) = some en)
    (hg : kvs.find? (fun e => decide (e.1 = str "group")) = some eg)
    (hv : kvs.find? (fun e => decide (e.1 = str "version")) = some ev)
    (hd : kvs.find? (fun e => decide (e.1 = str "description")) = some ed)
    (ha : kvs.find? (fun e => decide (e.1 = str "author")) = some ea)
    (hu : kvs.find? (fun e => decide (e.1 = str "url")) = some eu)
    (repo : Path) (now : Nat) (s : St) (hrepo : dirExists s.1.fs repo = true) :
    (install_plugin allOk arch repo now) s
      = (.ok (), (⟨installWrites s.1.fs repo eg.2 en.2 ev.2 ed.2 ea.2 eu.2
          arch.bytes arch.ini now, s.1.scratches⟩, s.2 + 8)) := by
  refine install_plugin_of_body hrepo (fun w hw => ?_)
  rw [installBody_success hini hn hg hv hd ha hu repo now (w, s.2), hw]

theorem installWrites_metadata (fs : FS) (repo : Path) (g n v desc auth url : Str)
    (bytes : List Nat) (ini : Option (List (Str × Str))) (now : Nat) :
    fsLookup (installWrites fs repo g n v desc auth url bytes ini now)
        (repo ++ [g, n, v] ++ [str "metadata.json"])
      = some (.metaFile ⟨n, g, v, desc, auth, url, now, file_hash_input bytes⟩) := by
  obtain ⟨-, -, -, -, -, -, -, -, -, -, -, -, hm12, hm13, -⟩ :=
    installNames_distinct (pluginKey g n v)
  unfold installWrites
  rw [fsLookup_fsWrite_other _ _ _ (path_snoc_ne hm13),
    fsLookup_fsWrite_other _ _ _ (path_snoc_ne hm12),
    fsLookup_fsWrite_self]

/-- The concrete run behind claim C4's counterexample: a descriptor whose
version field `"abc"` is not SemVer at all, ingested end-to-end (repository
creation, placement, index rebuild) from an empty world. -/
def c4arch : Archive :=
  ⟨some [(str "name", str "plug"), (str "group", str "grp"),
         (str "version", str "abc"), (str "description", str "d"),
         (str "author", str "a"), (str "url", str "u")], [9]⟩

def c4run : Except Err PluginDb × St :=
  install allOk c4arch [str "repo"] 3 ((⟨[], []⟩ : World), 0)

/-- C4 (counterexample): the version `"abc"` fails the SemVer grammar, yet
ingestion succeeds — the package is placed, its metadata record is written,
and the rebuilt index even lists `"abc"` as the latest version.  No
`InvalidVersion` error is raised anywhere. -/
theorem C4_counterexample_invalid_version_ingested :
    parse_version (str "abc") = none
    ∧ c4run.1 = .ok ⟨[str "grp"],
        [(str "grp", [(str "plug", ⟨some (str "abc"), [str "abc"]⟩)])]⟩
    ∧ fsLookup c4run.2.1.fs
        [str "repo", str "grp", str "plug", str "abc", str "metadata.json"]
      = some (.metaFile ⟨str "plug", str "grp", str "abc", str "d", str "a", str "u",
          3, [9]⟩) :=
  ⟨rfl, rfl, rfl⟩

/-- C4 (amended): `install_plugin` never parses the version field at all: for
any descriptor carrying all six keys, ingestion succeeds and writes the
archive, both sidecars, and the metadata record naming exactly the supplied
version string — whether or not that string satisfies the SemVer grammar.
`ValueError` from version parsing can only surface later, inside a rebuild
that has to compare two versions of one plugin. -/
theorem C4_no_version_validation_at_ingest (arch : Archive) (kvs : List (Str × Str))
    (en eg ev ed ea eu : Str × Str) (repo : Path) (now : Nat) (s : St)
    (hini : arch.ini = some kvs)
    (hn : kvs.find? (fun e => decide (e.1 = str "name")) = some en)
    (hg : kvs.find? (fun e => decide (e.1 = str "group")) = some eg)
    (hv : kvs.find? (fun e => decide (e.1 = str "version")) = some ev)
    (hd : kvs.find? (fun e => decide (e.1 = str "description")) = some ed)
    (ha : kvs.find? (fun e => decide (e.1 = str "author")) = some ea)
    (hu : kvs.find? (fun e => decide (e.1 = str "url")) = some eu)
    (hrepo : dirExists s.1.fs repo = true) :
    (install_plugin allOk arch repo now) s
      = (.ok (), (⟨installWrites s.1.fs repo eg.2 en.2 ev.2 ed.2 ea.2 eu.2
          arch.bytes arch.ini now, s.1.scratches⟩, s.2 + 8))
    ∧ fsLookup (installWrites s.1.fs repo eg.2 en.2 ev.2 ed.2 ea.2 eu.2
          arch.bytes arch.ini now)
        (repo ++ [eg.2, en.2, ev.2] ++ [str "metadata.json"])
      = some (.metaFile ⟨en.2, eg.2, ev.2, ed.2, ea.2, eu.2, now,
          file_hash_input arch.bytes⟩) :=
  ⟨install_plugin_success hini hn hg hv hd ha hu repo now s hrepo,
    installWrites_metadata _ _ _ _ _ _ _ _ _ _ _⟩

/-- C4 witness: the amended theorem applied to the invalid-version descriptor
`"abc"` over an existing repository. -/
theorem C4_witness_abc_ingested :
    (install_plugin allOk c4arch [str "repo"] 3 c2st)
      = (.ok (), (⟨installWrites c2st.1.fs [str "repo"] (str "grp") (str "plug")
          (str "abc") (str "d") (str "a") (str "u") [9] c4arch.ini 3,
          c2st.1.scratches⟩, 8))
    ∧ fsLookup (installWrites c2st.1.fs [str "repo"] (str "grp") (str "plug")
          (str "abc") (str "d") (str "a") (str "u") [9] c4arch.ini 3)
        ([str "repo"] ++ [str "grp", str "plug", str "abc"] ++ [str "metadata.json"])
      = some (.metaFile ⟨str "plug", str "grp", str "abc", str "d", str "a", str "u",
          3, file_hash_input [9]⟩) :=
  C4_no_version_validation_at_ingest c4arch
    [(str "name", str "plug"), (str "group", str "grp"),
     (str "version", str "abc"), (str "description", str "d"),
     (str "author", str "a"), (str "url", str "u")]
    (str "name", str "plug") (str "group", str "grp") (str "version", str "abc")
    (str "description", str "d") (str "author", str "a") (str "url", str "u")
    [str "repo"] 3 c2st rfl rfl rfl rfl rfl rfl rfl rfl

/-! ## Claim C8: packaging a directory -/

def c8ini : Option (List (Str × Str)) :=
  some [(str "group", str "g"), (str "name", str "n"), (str "version", str "1.0.0")]

def c8tree : List Path := [[str "plugin.ini"], [str "sub", str "g.n-1.0.0.zip"]]

/-- C8 (counterexample): the file `sub/g.n-1.0.0.zip` lies under the plugin
directory and is not the created archive (which sits at the directory root),
yet it gets no zip entry, because the walk skips every file whose *basename*
equals the archive's filename. -/
theorem C8_counterexample_basename_collision_skipped :
    prepare_plugin_zip c8tree c8ini
      = .ok (str "g.n-1.0.0.zip", [(str "plugin.ini", [str "plugin.ini"])])
    ∧ [str "sub", str "g.n-1.0.0.zip"] ∈ c8tree
    ∧ [str "sub", str "g.n-1.0.0.zip"] ≠ ([str "g.n-1.0.0.zip"] : Path)
    ∧ ∀ e ∈ [((str "plugin.ini" : Str), ([str "plugin.ini"] : Path))],
        e.2 ≠ [str "sub", str "g.n-1.0.0.zip"] :=
  ⟨rfl, by decide, by decide, by decide⟩

/-- C8 (amended): the archive is named `category.name-version.zip` from the
descriptor, and it collects — flattened under its basename — every file under
the directory whose basename differs from the archive's filename; any file
sharing the archive's basename, at any depth (the created archive itself
included), is excluded. -/
theorem C8_zip_collects_by_basename (tree : List Path) (ini : Option (List (Str × Str)))
    (kvs : List (Str × Str)) (eg en ev : Str × Str)
    (hini : ini = some kvs)
    (hg : kvs.find? (fun e => decide (e.1 = str "group")) = some eg)
    (hn : kvs.find? (fun e => decide (e.1 = str "name")) = some en)
    (hv : kvs.find? (fun e => decide (e.1 = str "version")) = some ev) :
    ∃ entries, prepare_plugin_zip tree ini
        = .ok (pluginKey eg.2 en.2 ev.2 ++ str ".zip", entries)
      ∧ (∀ p ∈ tree, p.getLastD [] ≠ pluginKey eg.2 en.2 ev.2 ++ str ".zip" →
          (p.getLastD [], p) ∈ entries)
      ∧ (∀ e ∈ entries, e.1 ≠ pluginKey eg.2 en.2 ev.2 ++ str ".zip"
          ∧ e.2.getLastD [] ≠ pluginKey eg.2 en.2 ev.2 ++ str ".zip") := by
  subst hini
  refine ⟨(tree ++ [[pluginKey eg.2 en.2 ev.2 ++ str ".zip"]]).filterMap (fun p =>
    if p.getLastD [] = pluginKey eg.2 en.2 ev.2 ++ str ".zip" then none
    else some (p.getLastD [], p)), ?_, ?_, ?_⟩
  · simp only [prepare_plugin_zip, configIndex, hg, hn, hv, exc_bind_ok, exc_pure_eq_ok]
    rfl
  · intro p hp hne
    rw [List.mem_filterMap]
    exact ⟨p, List.mem_append_left _ hp, by rw [if_neg hne]⟩
  · intro e he
    rw [List.mem_filterMap] at he
    obtain ⟨p, -, hf⟩ := he
    by_cases hne : p.getLastD [] = pluginKey eg.2 en.2 ev.2 ++ str ".zip"
    · rw [if_pos hne] at hf
      exact absurd hf (by simp)
    · rw [if_neg hne] at hf
      injection hf with hf
      subst hf
      exact ⟨hne, hne⟩

/-- C8 witness: the amended theorem at the concrete two-file tree. -/
theorem C8_packaging_witness :
    ∃ entries, prepare_plugin_zip c8tree c8ini
        = .ok (pluginKey (str "g") (str "n") (str "1.0.0") ++ str ".zip", entries)
      ∧ (∀ p ∈ c8tree,
          p.getLastD [] ≠ pluginKey (str "g") (str "n") (str "1.0.0") ++ str ".zip" →
          (p.getLastD [], p) ∈ entries)
      ∧ (∀ e ∈ entries, e.1 ≠ pluginKey (str "g") (str "n") (str "1.0.0") ++ str ".zip"
          ∧ e.2.getLastD [] ≠ pluginKey (str "g") (str "n") (str "1.0.0") ++ str ".zip") :=
  C8_zip_collects_by_basename c8tree c8ini
    [(str "group", str "g"), (str "name", str "n"), (str "version", str "1.0.0")]
    (str "group", str "g") (str "name", str "n") (str "version", str "1.0.0")
    rfl rfl rfl rfl

/-! ## Claim C10: the rebuilt index is determined by the metadata records -/

/-- `version in plugin_db[group][name]['versions']`, on a bare group table. -/
def dbHasT (table : List (Str × List (Str × PluginEntry))) (g n v : Str) : Bool :=
  ((((table.find? (fun e => decide (e.1 = g))).map (fun x => x.2)).bind
      (fun sub => (sub.find? (fun e => decide (e.1 = n))).map (fun x => x.2))).map
    (fun en => decide (v ∈ en.versions))).getD false

/-- `version in plugin_db[group][name]['versions']`: the triple is listed by
the index. -/
def dbHas (db : PluginDb) (g n v : Str) : Bool := dbHasT db.table g n v

theorem find?_updateAssoc_self {α : Type} (l : List (Str × α)) (k : Str) (v : α) :
    (updateAssoc l k v).find? (fun e => decide (e.1 = k)) = some (k, v) := by
  induction l with
  | nil =>
    unfold updateAssoc
    rw [List.find?_cons_of_pos _ (by simp)]
  | cons hd t ih =>
    obtain ⟨a, b⟩ := hd
    unfold updateAssoc
    by_cases h : a = k
    · rw [if_pos h, List.find?_cons_of_pos _ (by simp)]
    · rw [if_neg h, List.find?_cons_of_neg _ (by simpa using h)]
      exact ih

theorem find?_updateAssoc_other {α : Type} (l : List (Str × α)) {k k' : Str} (v : α)
    (hne : k' ≠ k) :
    (updateAssoc l k v).find? (fun e => decide (e.1 = k'))
      = l.find? (fun e => decide (e.1 = k')) := by
  induction l with
  | nil =>
    unfold updateAssoc
    rw [List.find?_cons_of_neg _ (by simpa using fun h => hne h.symm)]
  | cons hd t ih =>
    obtain ⟨a, b⟩ := hd
    unfold updateAssoc
    by_cases h : a = k
    · rw [if_pos h, List.find?_cons_of_neg _ (by simpa using fun hh => hne hh.symm),
        List.find?_cons_of_neg _ (by simpa using fun hh => hne (hh.symm.trans h))]
    · rw [if_neg h]
      by_cases h2 : a = k'
      · rw [List.find?_cons_of_pos _ (by simpa using h2),
          List.find?_cons_of_pos _ (by simpa using h2)]
      · rw [List.find?_cons_of_neg _ (by simpa using h2),
          List.find?_cons_of_neg _ (by simpa using h2)]
        exact ih

/-- Looking up `k` after the "create key if absent" step of the scan loop. -/
theorem find?_ensure {α : Type} (l : List (Str × α)) (k : Str) (d : α) :
    (((if (l.find? (fun e => decide (e.1 = k))).isSome then l else l ++ [(k, d)]).find?
        (fun e => decide (e.1 = k))).map (·.2))
      = some (((l.find? (fun e => decide (e.1 = k))).map (·.2)).getD d) := by
  cases hf : l.find? (fun e => decide (e.1 = k)) with
  | none =>
    rw [if_neg (fun hh => Bool.noConfusion hh), List.find?_append, hf,
      List.find?_cons_of_pos _ (by simp)]
    rfl
  | some e =>
    simp only [Option.isSome_some, eq_self_iff_true, if_true]
    rw [hf]
    rfl

/-- The "create key if absent" step does not disturb other keys. -/
theorem find?_ensure_other {α : Type} (l : List (Str × α)) {k k' : Str} (d : α)
    (hne : k' ≠ k) :
    ((if (l.find? (fun e => decide (e.1 = k))).isSome then l else l ++ [(k, d)]).find?
        (fun e => decide (e.1 = k')))
      = l.find? (fun e => decide (e.1 = k')) := by
  cases hf : l.find? (fun e => decide (e.1 = k)) with
  | none =>
    rw [if_neg (fun hh => Bool.noConfusion hh), List.find?_append,
      List.find?_cons_of_neg _ (by simpa using fun hh => hne hh.symm),
      List.find?_nil, Option.or_none]
  | some e =>
    simp only [Option.isSome_some, eq_self_iff_true, if_true]

theorem exc_bind_eq_ok {ε α β : Type} {x : Except ε α} {f : α → Except ε β} {b : β}
    (h : x >>= f = .ok b) : ∃ a, x = .ok a ∧ f a = .ok b := by
  cases x with
  | error e => exact Except.noConfusion h
  | ok a => exact ⟨a, rfl, h⟩

/-- Membership in a version list after the "append if absent" step. -/
theorem mem_bump_versions (entry : PluginEntry) (mv v : Str) :
    (v ∈ (if mv ∈ entry.versions then entry
      else { entry with versions := entry.versions ++ [mv] }).versions)
    ↔ (v ∈ entry.versions ∨ v = mv) := by
  by_cases h : mv ∈ entry.versions
  · rw [if_pos h]
    constructor
    · exact Or.inl
    · rintro (hv | rfl)
      · exact hv
      · exact h
  · rw [if_neg h]
    simp

/-- The scan loop's `groups` list after one record. -/
def bumpGroups (db : PluginDb) (m : Metadata) : List Str :=
  if m.group ∈ db.groups then db.groups else db.groups ++ [m.group]

/-- The group table after `if plugin_type not in plugin_db: plugin_db[t] = {}`. -/
def ensuredTable (db : PluginDb) (m : Metadata) : List (Str × List (Str × PluginEntry)) :=
  if (db.table.find? (fun e => decide (e.1 = m.group))).isSome
    then db.table else db.table ++ [(m.group, [])]

/-- `plugin_db[plugin_type]` right after the group key was ensured. -/
def sub0 (db : PluginDb) (m : Metadata) : List (Str × PluginEntry) :=
  (((ensuredTable db m).find? (fun e => decide (e.1 = m.group))).map (fun x => x.2)).getD []

/-- The name table after `if name not in ...: ... = {'latest':None,'versions':[]}`. -/
def subTable (db : PluginDb) (m : Metadata) : List (Str × PluginEntry) :=
  if ((sub0 db m).find? (fun e => decide (e.1 = m.name))).isSome
    then sub0 db m else sub0 db m ++ [(m.name, { latest := none, versions := [] })]

/-- `plugin_db[t][name]` right after the name key was ensured. -/
def baseEntry (db : PluginDb) (m : Metadata) : PluginEntry :=
  (((subTable db m).find? (fun e => decide (e.1 = m.name))).map (fun x => x.2)).getD
    { latest := none, versions := [] }

/-- The entry after the version was appended (when not already listed). -/
def entryOf (db : PluginDb) (m : Metadata) : PluginEntry :=
  if m.version ∈ (baseEntry db m).versions then baseEntry db m
  else { baseEntry db m with versions := (baseEntry db m).versions ++ [m.version] }

/-- `processRecord` in terms of the update pipeline above. -/
theorem processRecord_groups (db : PluginDb) (m : Metadata) :
    processRecord db m = (if m.group = str "groups" then throw Err.typeErr
      else Except.ok { groups := bumpGroups db m,
                       table := updateAssoc (ensuredTable db m) m.group
                         (updateAssoc (subTable db m) m.name (entryOf db m)) }) := rfl

theorem dbHasT_of_none {table : List (Str × List (Str × PluginEntry))} {g : Str}
    (h : table.find? (fun e => decide (e.1 = g)) = none) (n v : Str) :
    dbHasT table g n v = false := by
  unfold dbHasT
  rw [h]
  rfl

theorem dbHasT_of_some {table : List (Str × List (Str × PluginEntry))} {g : Str}
    {e : Str × List (Str × PluginEntry)}
    (h : table.find? (fun e => decide (e.1 = g)) = some e) (n v : Str) :
    dbHasT table g n v
      = (((e.2.find? (fun e => decide (e.1 = n))).map (fun x => x.2)).map
          (fun en => decide (v ∈ en.versions))).getD false := by
  unfold dbHasT
  rw [h]
  rfl

/-- One scan-loop step adds exactly the record's `(group, name, version)`
triple to the member relation of the accumulated index. -/
theorem processRecord_dbHas {db db' : PluginDb} {m : Metadata}
    (h : processRecord db m = .ok db') (g n v : Str) :
    dbHas db' g n v = true ↔
      (dbHas db g n v = true ∨ (g = m.group ∧ n = m.name ∧ v = m.version)) := by
  rw [processRecord_groups] at h
  by_cases hgr : m.group = str "groups"
  · rw [if_pos hgr] at h
    exact Except.noConfusion h
  rw [if_neg hgr] at h
  injection h with h
  subst h
  unfold dbHas
  by_cases hg : g = m.group
  · subst hg
    unfold dbHasT
    rw [find?_updateAssoc_self]
    simp only [Option.map_some', Option.some_bind]
    by_cases hn : n = m.name
    · subst hn
      rw [find?_updateAssoc_self]
      simp only [Option.map_some', Option.getD_some, decide_eq_true_eq]
      rw [show entryOf db m = (if m.version ∈ (baseEntry db m).versions then baseEntry db m
        else { baseEntry db m with
          versions := (baseEntry db m).versions ++ [m.version] }) from rfl,
        mem_bump_versions]
      have hbase : baseEntry db m
          = (((sub0 db m).find? (fun e => decide (e.1 = m.name))).map (fun x => x.2)).getD
            { latest := none, versions := [] } := by
        unfold baseEntry subTable
        rw [find?_ensure]
        rfl
      have hsub : sub0 db m
          = ((db.table.find? (fun e => decide (e.1 = m.group))).map (fun x => x.2)).getD [] := by
        unfold sub0 ensuredTable
        rw [find?_ensure]
        rfl
      rw [hbase, hsub]
      cases hft : db.table.find? (fun e => decide (e.1 = m.group)) with
      | none => simp
      | some e =>
        cases hfs : e.2.find? (fun e => decide (e.1 = m.name)) with
        | none => simp [hfs]
        | some e₂ => simp [hfs]
    · rw [find?_updateAssoc_other _ _ hn,
        show subTable db m = (if ((sub0 db m).find? (fun e => decide (e.1 = m.name))).isSome
          then sub0 db m
          else sub0 db m ++ [(m.name, { latest := none, versions := [] })]) from rfl,
        find?_ensure_other _ _ hn]
      have hsub : sub0 db m
          = ((db.table.find? (fun e => decide (e.1 = m.group))).map (fun x => x.2)).getD [] := by
        unfold sub0 ensuredTable
        rw [find?_ensure]
        rfl
      rw [hsub]
      cases hft : db.table.find? (fun e => decide (e.1 = m.group)) with
      | none => simp [hn]
      | some e => simp [hn]
  · unfold dbHasT
    rw [find?_updateAssoc_other _ _ hg,
      show ensuredTable db m = (if (db.table.find? (fun e => decide (e.1 = m.group))).isSome
        then db.table else db.table ++ [(m.group, [])]) from rfl,
      find?_ensure_other _ _ hg]
    simp [hg]

/-- Folding metadata files into the index: a triple is a member of the result
iff it is a member of the seed or declared by one of the processed files. -/
theorem foldRecords_dbHas (fs : FS) :
    ∀ (L : List Path) (db₀ db : PluginDb),
    L.foldlM (fun db fn =>
      match fsLookup fs fn with
      | some (.metaFile m) => processRecord db m
      | _ => throw Err.malformedRecord) db₀ = .ok db →
    ∀ g n v, (dbHas db g n v = true ↔
      (dbHas db₀ g n v = true ∨ ∃ p ∈ L, ∃ m, fsLookup fs p = some (.metaFile m)
        ∧ g = m.group ∧ n = m.name ∧ v = m.version)) := by
  intro L
  induction L with
  | nil =>
    intro db₀ db h g n v
    rw [List.foldlM_nil] at h
    injection h with h
    subst h
    simp
  | cons p t ih =>
    intro db₀ db h g n v
    rw [List.foldlM_cons] at h
    obtain ⟨db₁, h₁, h₂⟩ := exc_bind_eq_ok h
    cases hfl : fsLookup fs p with
    | none =>
      rw [hfl] at h₁
      exact Except.noConfusion h₁
    | some c =>
      cases c with
      | zipArchive i b =>
        rw [hfl] at h₁
        exact Except.noConfusion h₁
      | sidecar d =>
        rw [hfl] at h₁
        exact Except.noConfusion h₁
      | indexFile d =>
        rw [hfl] at h₁
        exact Except.noConfusion h₁
      | metaFile m =>
        rw [hfl] at h₁
        rw [ih db₁ db h₂ g n v, processRecord_dbHas h₁ g n v]
        constructor
        · rintro ((hd | hf) | ⟨q, hq, m', hm', hfields⟩)
          · exact Or.inl hd
          · exact Or.inr ⟨p, List.mem_cons_self p t, m, hfl, hf⟩
          · exact Or.inr ⟨q, List.mem_cons_of_mem p hq, m', hm', hfields⟩
        · rintro (hd | ⟨q, hq, m', hm', hfields⟩)
          · exact Or.inl (Or.inl hd)
          · rcases List.mem_cons.mp hq with rfl | hq'
            · rw [hfl] at hm'
              injection hm' with hm'
              injection hm' with hm'
              subst hm'
              exact Or.inl (Or.inr hfields)
            · exact Or.inr ⟨q, hq', m', hm', hfields⟩

/-- `scanRecords` membership: a `(group, name, version)` triple is in the
scanned index iff some `metadata.json` under the repository root carries
exactly those three fields — whatever the rest of its path looks like, and
whether or not any archive or sidecar accompanies it. -/
theorem scanRecords_dbHas {fs : FS} {repo : Path} {db : PluginDb}
    (h : scanRecords fs repo = .ok db) (g n v : Str) :
    dbHas db g n v = true ↔ ∃ p m, isMetaPath repo p = true
      ∧ fsLookup fs p = some (.metaFile m)
      ∧ g = m.group ∧ n = m.name ∧ v = m.version := by
  unfold scanRecords at h
  rw [foldRecords_dbHas fs _ _ db h g n v]
  constructor
  · rintro (hd | ⟨p, hp, m, hfl, hfields⟩)
    · exact Bool.noConfusion hd
    · obtain ⟨e, he, hep⟩ := List.mem_map.mp hp
      obtain ⟨hef, hmeta⟩ := List.mem_filter.mp he
      refine ⟨p, m, ?_, hfl, hfields⟩
      rw [← hep]
      exact hmeta
  · rintro ⟨p, m, hmeta, hfl, hfields⟩
    refine Or.inr ⟨p, ?_, m, hfl, hfields⟩
    unfold fsLookup at hfl
    cases hfind : fs.find? (fun e => decide (e.1 = p)) with
    | none =>
      rw [hfind] at hfl
      exact Option.noConfusion hfl
    | some e =>
      have hmem := List.mem_of_find?_eq_some hfind
      have hkey : e.1 = p := by simpa using List.find?_some hfind
      exact List.mem_map.mpr ⟨e, List.mem_filter.mpr ⟨hmem, by rw [hkey]; exact hmeta⟩, hkey⟩

/-- A successful insertion permutes: `insertSorted` only ever moves `x` into
the list. -/
theorem insertSorted_perm (x : Str) :
    ∀ {l r : List Str}, insertSorted x l = .ok r → r.Perm (x :: l) := by
  intro l
  induction l with
  | nil =>
    intro r h
    injection h with h
    subst h
    exact List.Perm.refl _
  | cons y ys ih =>
    intro r h
    have h' : (semverLt x y >>= fun b =>
        if b then pure (x :: y :: ys)
        else insertSorted x ys >>= fun r => pure (y :: r)) = .ok r := h
    obtain ⟨b, hb, h₂⟩ := exc_bind_eq_ok h'
    cases b with
    | true =>
      rw [if_pos rfl] at h₂
      injection h₂ with h₂
      subst h₂
      exact List.Perm.refl _
    | false =>
      rw [if_neg (fun hh => Bool.noConfusion hh)] at h₂
      obtain ⟨r', hr', h₃⟩ := exc_bind_eq_ok h₂
      injection h₃ with h₃
      subst h₃
      exact ((ih hr').cons y).trans (List.Perm.swap x y ys)

theorem foldl_insertSorted_perm :
    ∀ (l acc r : List Str),
    l.foldlM (fun acc x => insertSorted x acc) acc = .ok r → r.Perm (acc ++ l) := by
  intro l
  induction l with
  | nil =>
    intro acc r h
    rw [List.foldlM_nil] at h
    injection h with h
    subst h
    rw [List.append_nil]
  | cons x t ih =>
    intro acc r h
    rw [List.foldlM_cons] at h
    obtain ⟨acc₁, h₁, h₂⟩ := exc_bind_eq_ok h
    exact ((ih acc₁ r h₂).trans (((insertSorted_perm x h₁).append_right t).trans
      List.perm_middle.symm))

/-- A successful `sorted(…, key=SemverKeySort)` returns a permutation of its
input. -/
theorem pySorted_perm {l r : List Str} (h : pySorted l = .ok r) : r.Perm l :=
  foldl_insertSorted_perm l [] r h

/-- The per-name body of the ranking loop (slpr.py:457-459): sort the version
list and point `latest` at its last element. -/
def sortEntry (e : Str × PluginEntry) : Except Err (Str × PluginEntry) := do
  match pySorted e.2.versions with
  | .error _ => throw Err.valueErr
  | .ok sv =>
    match sv.getLast? with
    | none => throw Err.indexErr
    | some last => pure (e.1, ({ latest := some last, versions := sv } : PluginEntry))

/-- One group's step of the ranking loop. -/
def sortStep (table : List (Str × List (Str × PluginEntry))) (t : Str) :
    Except Err (List (Str × List (Str × PluginEntry))) := do
  match (table.find? (fun e => decide (e.1 = t))).map (·.2) with
  | none => throw Err.keyErr
  | some sub => do
    let sub' ← sub.mapM sortEntry
    pure (updateAssoc table t sub')

theorem sortEntry_spec (a b : Str × PluginEntry) (h : sortEntry a = .ok b) :
    b.1 = a.1 ∧ b.2.versions.Perm a.2.versions := by
  unfold sortEntry at h
  cases hps : pySorted a.2.versions with
  | error u =>
    rw [hps] at h
    exact Except.noConfusion h
  | ok sv =>
    rw [hps] at h
    have h' : (match sv.getLast? with
      | none => throw Err.indexErr
      | some last => pure (a.1, ({ latest := some last, versions := sv } : PluginEntry))
        : Except Err (Str × PluginEntry)) = Except.ok b := h
    cases hgl : sv.getLast? with
    | none =>
      rw [hgl] at h'
      exact Except.noConfusion h'
    | some last =>
      rw [hgl] at h'
      injection h' with h'
      subst h'
      exact ⟨rfl, pySorted_perm hps⟩

/-- Mapping a key-preserving, version-set-preserving action over a name table
does not change which versions are looked up. -/
theorem mapM_find?_entry {f : Str × PluginEntry → Except Err (Str × PluginEntry)}
    (hf : ∀ a b, f a = .ok b → b.1 = a.1 ∧ ∀ v, (v ∈ b.2.versions ↔ v ∈ a.2.versions)) :
    ∀ {sub sub' : List (Str × PluginEntry)}, sub.mapM f = .ok sub' →
    ∀ (n v : Str),
    (((sub'.find? (fun e => decide (e.1 = n))).map (fun x => x.2)).map
        (fun en => decide (v ∈ en.versions))).getD false
      = (((sub.find? (fun e => decide (e.1 = n))).map (fun x => x.2)).map
        (fun en => decide (v ∈ en.versions))).getD false := by
  intro sub
  induction sub with
  | nil =>
    intro sub' h n v
    rw [List.mapM_nil] at h
    injection h with h
    subst h
    rfl
  | cons a t ih =>
    intro sub' h n v
    rw [List.mapM_cons] at h
    obtain ⟨b, hb, h₂⟩ := exc_bind_eq_ok h
    obtain ⟨bs, hbs, h₃⟩ := exc_bind_eq_ok h₂
    injection h₃ with h₃
    subst h₃
    obtain ⟨hkey, hvers⟩ := hf a b hb
    by_cases hn : a.1 = n
    · rw [List.find?_cons_of_pos _ (by simpa using hkey.trans hn),
        List.find?_cons_of_pos _ (by simpa using hn)]
      simp only [Option.map_some', Option.getD_some]
      exact decide_eq_decide.mpr (hvers v)
    · rw [List.find?_cons_of_neg _ (by simpa using fun hh => hn (hkey.symm.trans hh)),
        List.find?_cons_of_neg _ (by simpa using hn)]
      exact ih hbs n v

theorem sortFold_dbHasT :
    ∀ (gs : List Str) (table table' : List (Str × List (Str × PluginEntry))),
    gs.foldlM sortStep table = .ok table' →
    ∀ g n v, dbHasT table' g n v = dbHasT table g n v := by
  intro gs
  induction gs with
  | nil =>
    intro table table' h g n v
    rw [List.foldlM_nil] at h
    injection h with h
    subst h
    rfl
  | cons t ts ih =>
    intro table table' h g n v
    rw [List.foldlM_cons] at h
    obtain ⟨table₁, h₁, h₂⟩ := exc_bind_eq_ok h
    rw [ih table₁ table' h₂ g n v]
    cases hft : table.find? (fun e => decide (e.1 = t)) with
    | none =>
      unfold sortStep at h₁
      rw [hft] at h₁
      exact Except.noConfusion h₁
    | some e =>
      unfold sortStep at h₁
      rw [hft] at h₁
      have h₁' : (e.2.mapM sortEntry >>= fun sub' =>
          pure (updateAssoc table t sub')) = .ok table₁ := h₁
      obtain ⟨sub', hmap, hpure⟩ := exc_bind_eq_ok h₁'
      injection hpure with hpure
      subst hpure
      by_cases hg : g = t
      · subst hg
        unfold dbHasT
        rw [find?_updateAssoc_self, hft]
        simp only [Option.map_some', Option.some_bind]
        exact mapM_find?_entry
          (fun a b hab => ⟨(sortEntry_spec a b hab).1,
            fun v => (sortEntry_spec a b hab).2.mem_iff⟩) hmap n v
      · unfold dbHasT
        rw [find?_updateAssoc_other _ _ hg]

/-- The ranking loop neither adds nor removes any `(group, name, version)`
triple: it only reorders version lists and sets `latest`. -/
theorem sortPhase_dbHas {db db' : PluginDb} (h : sortPhase db = .ok db') (g n v : Str) :
    dbHas db' g n v = dbHas db g n v := by
  have h' : (db.groups.foldlM sortStep db.table >>= fun table =>
      pure ({ db with table := table } : PluginDb)) = .ok db' := h
  obtain ⟨tbl, h₁, h₂⟩ := exc_bind_eq_ok h'
  injection h₂ with h₂
  subst h₂
  exact sortFold_dbHasT db.groups db.table tbl h₁ g n v

theorem write_bind_ok {oracle : Nat → Bool} {p : Path} {c : Content} {α : Type}
    {k : Unit → M α} {s : St} {b : α}
    (h : ((writeFile oracle p c >>= k) s).1 = .ok b) : ∃ s', (k () s').1 = .ok b := by
  rw [bind_def, writeFile_run] at h
  by_cases h₁ : oracle s.2
  · rw [if_pos h₁] at h
    exact ⟨_, h⟩
  · rw [if_neg h₁] at h
    exact Except.noConfusion h

/-- A successful `refresh_repository` run scanned and sorted successfully,
and returns the sorted index. -/
theorem refresh_run_ok {oracle : Nat → Bool} {repo : Path} {s : St} {db : PluginDb}
    (h : ((refresh_repository oracle repo) s).1 = .ok db) :
    ∃ db₀, scanRecords s.1.fs repo = .ok db₀ ∧ sortPhase db₀ = .ok db := by
  have h' : (((liftE (scanRecords s.1.fs repo) : M PluginDb) >>= fun db0 =>
      (liftE (sortPhase db0) : M PluginDb) >>= fun db1 =>
      writeFile oracle (repo ++ [str "plugins.json"]) (.indexFile db1) >>= fun _ =>
      writeFile oracle (repo ++ [str "plugins.json.md5"]) (.sidecar ⟨false, .ofIndex db1⟩)
        >>= fun _ =>
      writeFile oracle (repo ++ [str "plugins.json.sha256"]) (.sidecar ⟨true, .ofIndex db1⟩)
        >>= fun _ =>
      (pure db1 : M PluginDb)) s).1 = .ok db := h
  rw [bind_def,
    show (liftE (scanRecords s.1.fs repo) : M PluginDb) s = (scanRecords s.1.fs repo, s)
      from rfl] at h'
  cases hscan : scanRecords s.1.fs repo with
  | error e =>
    rw [hscan] at h'
    exact Except.noConfusion h'
  | ok db₀ =>
    rw [hscan] at h'
    have h'' : (((liftE (sortPhase db₀) : M PluginDb) >>= fun db1 =>
        writeFile oracle (repo ++ [str "plugins.json"]) (.indexFile db1) >>= fun _ =>
        writeFile oracle (repo ++ [str "plugins.json.md5"]) (.sidecar ⟨false, .ofIndex db1⟩)
          >>= fun _ =>
        writeFile oracle (repo ++ [str "plugins.json.sha256"]) (.sidecar ⟨true, .ofIndex db1⟩)
          >>= fun _ =>
        (pure db1 : M PluginDb)) s).1 = .ok db := h'
    rw [bind_def,
      show (liftE (sortPhase db₀) : M PluginDb) s = (sortPhase db₀, s) from rfl] at h''
    cases hsort : sortPhase db₀ with
    | error e =>
      rw [hsort] at h''
      exact Except.noConfusion h''
    | ok db₁ =>
      rw [hsort] at h''
      have h₃ : ((writeFile oracle (repo ++ [str "plugins.json"]) (.indexFile db₁)
          >>= fun _ =>
          writeFile oracle (repo ++ [str "plugins.json.md5"]) (.sidecar ⟨false, .ofIndex db₁⟩)
            >>= fun _ =>
          writeFile oracle (repo ++ [str "plugins.json.sha256"]) (.sidecar ⟨true, .ofIndex db₁⟩)
            >>= fun _ =>
          (pure db₁ : M PluginDb)) s).1 = .ok db := h''
      obtain ⟨s₁, h₃⟩ := write_bind_ok h₃
      obtain ⟨s₂, h₃⟩ := write_bind_ok h₃
      obtain ⟨s₃, h₃⟩ := write_bind_ok h₃
      injection h₃ with h₃
      exact ⟨db₀, rfl, h₃ ▸ hsort⟩

/-- C10: a `(category, name, version)` triple appears in the rebuilt index
iff some `metadata.json` under the repository root declares exactly those
group/name/version fields: the record's directory path components are
ignored for identity, and no archive or checksum sidecar needs to exist. -/
theorem C10_index_iff_metadata_records {oracle : Nat → Bool} {repo : Path} {s : St}
    {db : PluginDb} (h : ((refresh_repository oracle repo) s).1 = .ok db) (g n v : Str) :
    dbHas db g n v = true ↔ ∃ p m, isMetaPath repo p = true
      ∧ fsLookup s.1.fs p = some (.metaFile m)
      ∧ g = m.group ∧ n = m.name ∧ v = m.version := by
  obtain ⟨db₀, hscan, hsort⟩ := refresh_run_ok h
  rw [sortPhase_dbHas hsort g n v]
  exact scanRecords_dbHas hscan g n v

/-- A lone metadata record at an odd path (`repo/odd/metadata.json` — no
`group/name/version` directories, no archive, no sidecars anywhere). -/
def c10m : Metadata :=
  ⟨str "n", str "g", str "1.0.0", str "d", str "a", str "u", 0, []⟩

def c10fs : FS := [([str "repo", str "odd", str "metadata.json"], .metaFile c10m)]

def c10db : PluginDb :=
  ⟨[str "g"], [(str "g", [(str "n", ⟨some (str "1.0.0"), [str "1.0.0"]⟩)])]⟩

/-- C10 witness: the theorem applied to a repository holding that lone
record, whose rebuild succeeds and lists `(g, n, 1.0.0)`. -/
theorem C10_records_witness :
    dbHas c10db (str "g") (str "n") (str "1.0.0") = true ↔ ∃ p m,
      isMetaPath [str "repo"] p = true
      ∧ fsLookup c10fs p = some (.metaFile m)
      ∧ str "g" = m.group ∧ str "n" = m.name ∧ str "1.0.0" = m.version :=
  @C10_index_iff_metadata_records allOk [str "repo"] ((⟨c10fs, []⟩ : World), 0) c10db rfl
    (str "g") (str "n") (str "1.0.0")

/-! ## Claim C7: re-ingesting the same identity -/

/-- The six paths `install_plugin` writes under the version directory. -/
def installPaths (repo : Path) (g n v : Str) : List Path :=
  let key := pluginKey g n v
  let dir := repo ++ [g, n, v]
  [dir ++ [key ++ str ".zip"], dir ++ [key ++ str ".zip.md5"],
   dir ++ [key ++ str ".zip.sha256"], dir ++ [str "metadata.json"],
   dir ++ [str "metadata.json.md5"], dir ++ [str "metadata.json.sha256"]]

theorem fsLookup_installWrites_other {q : Path} {repo : Path} {g n v : Str}
    (hq : q ∉ installPaths repo g n v) (fs : FS) (d a u : Str) (b : List Nat)
    (ini : Option (List (Str × Str))) (t : Nat) :
    fsLookup (installWrites fs repo g n v d a u b ini t) q = fsLookup fs q := by
  simp only [installPaths, List.mem_cons, not_or] at hq
  obtain ⟨h1, h2, h3, h4, h5, h6, -⟩ := hq
  unfold installWrites
  rw [fsLookup_fsWrite_other _ _ _ h6, fsLookup_fsWrite_other _ _ _ h5,
    fsLookup_fsWrite_other _ _ _ h4, fsLookup_fsWrite_other _ _ _ h1,
    fsLookup_fsWrite_other _ _ _ h3, fsLookup_fsWrite_other _ _ _ h2]

theorem fsLookup_installWrites_self_isSome {q : Path} {repo : Path} {g n v : Str}
    (hq : q ∈ installPaths repo g n v) (fs : FS) (d a u : Str) (b : List Nat)
    (ini : Option (List (Str × Str))) (t : Nat) :
    (fsLookup (installWrites fs repo g n v d a u b ini t) q).isSome = true := by
  obtain ⟨hA, hB, hC, hD, hE, hF, hG, hH, hI, hJ, hK, hL, hM, hN, hO⟩ :=
    installNames_distinct (pluginKey g n v)
  simp only [installPaths, List.mem_cons, List.not_mem_nil, or_false] at hq
  unfold installWrites
  rcases hq with rfl | rfl | rfl | rfl | rfl | rfl
  · rw [fsLookup_fsWrite_other _ _ _ (path_snoc_ne hL),
      fsLookup_fsWrite_other _ _ _ (path_snoc_ne hK),
      fsLookup_fsWrite_other _ _ _ (path_snoc_ne hJ), fsLookup_fsWrite_self]
    rfl
  · rw [fsLookup_fsWrite_other _ _ _ (path_snoc_ne hF),
      fsLookup_fsWrite_other _ _ _ (path_snoc_ne hE),
      fsLookup_fsWrite_other _ _ _ (path_snoc_ne hD),
      fsLookup_fsWrite_other _ _ _ (path_snoc_ne hB),
      fsLookup_fsWrite_other _ _ _ (path_snoc_ne hA), fsLookup_fsWrite_self]
    rfl
  · rw [fsLookup_fsWrite_other _ _ _ (path_snoc_ne hI),
      fsLookup_fsWrite_other _ _ _ (path_snoc_ne hH),
      fsLookup_fsWrite_other _ _ _ (path_snoc_ne hG),
      fsLookup_fsWrite_other _ _ _ (path_snoc_ne hC), fsLookup_fsWrite_self]
    rfl
  · rw [fsLookup_fsWrite_other _ _ _ (path_snoc_ne hN),
      fsLookup_fsWrite_other _ _ _ (path_snoc_ne hM), fsLookup_fsWrite_self]
    rfl
  · rw [fsLookup_fsWrite_other _ _ _ (path_snoc_ne hO), fsLookup_fsWrite_self]
    rfl
  · rw [fsLookup_fsWrite_self]
    rfl

theorem dirExists_installWrites (fs : FS) (repo : Path) (g n v d a u : Str)
    (b : List Nat) (ini : Option (List (Str × Str))) (t : Nat) :
    dirExists (installWrites fs repo g n v d a u b ini t) repo = true := by
  unfold dirExists installWrites fsWrite
  rw [List.any_cons]
  have hpre : repo.isPrefixOf (repo ++ [g, n, v] ++ [str "metadata.json.sha256"]) = true := by
    rw [List.isPrefixOf_iff_prefix]
    exact (List.prefix_append repo [g, n, v]).trans
      (List.prefix_append (repo ++ [g, n, v]) [str "metadata.json.sha256"])
  rw [hpre, Bool.true_or]

/-- The walk of the repository tree yields the written metadata record path,
wherever the repository root lies. -/
theorem isMetaPath_install (repo : Path) (g n v : Str) :
    isMetaPath repo (repo ++ [g, n, v] ++ [str "metadata.json"]) = true := by
  unfold isMetaPath
  rw [Bool.and_eq_true, Bool.and_eq_true]
  refine ⟨⟨?_, ?_⟩, ?_⟩
  · rw [List.isPrefixOf_iff_prefix]
    exact (List.prefix_append repo [g, n, v]).trans
      (List.prefix_append (repo ++ [g, n, v]) [str "metadata.json"])
  · simp only [decide_eq_true_eq, List.length_append, List.length_cons, List.length_nil]
    omega
  · simp only [decide_eq_true_eq]
    exact List.getLastD_concat _ _ _

/-- Every version list anywhere in the table is duplicate-free. -/
def TableNodupV (table : List (Str × List (Str × PluginEntry))) : Prop :=
  ∀ e ∈ table, ∀ e₂ ∈ e.2, e₂.2.versions.Nodup

theorem mem_updateAssoc {α : Type} {x : Str × α} {l : List (Str × α)} {k : Str} {v : α}
    (h : x ∈ updateAssoc l k v) : x = (k, v) ∨ x ∈ l := by
  induction l with
  | nil =>
    unfold updateAssoc at h
    exact Or.inl (List.mem_singleton.mp h)
  | cons hd t ih =>
    obtain ⟨a, b⟩ := hd
    unfold updateAssoc at h
    by_cases ha : a = k
    · rw [if_pos ha] at h
      rcases List.mem_cons.mp h with rfl | h
      · exact Or.inl rfl
      · exact Or.inr (List.mem_cons_of_mem _ h)
    · rw [if_neg ha] at h
      rcases List.mem_cons.mp h with rfl | h
      · exact Or.inr (List.mem_cons_self _ _)
      · rcases ih h with h | h
        · exact Or.inl h
        · exact Or.inr (List.mem_cons_of_mem _ h)

/-- One scan step keeps every version list duplicate-free: the `if version
not in ...` guard skips an already-listed version. -/
theorem processRecord_nodup {db db' : PluginDb} {m : Metadata}
    (h : processRecord db m = .ok db') (hdb : TableNodupV db.table) :
    TableNodupV db'.table := by
  rw [processRecord_groups] at h
  by_cases hgr : m.group = str "groups"
  · rw [if_pos hgr] at h
    exact Except.noConfusion h
  rw [if_neg hgr] at h
  injection h with h
  subst h
  have hens : ∀ e ∈ ensuredTable db m, ∀ e₂ ∈ e.2, e₂.2.versions.Nodup := by
    intro e he
    unfold ensuredTable at he
    by_cases hf : ((db.table.find? (fun e => decide (e.1 = m.group))).isSome) = true
    · rw [if_pos hf] at he
      exact hdb e he
    · rw [if_neg hf] at he
      rcases List.mem_append.mp he with he | he
      · exact hdb e he
      · rcases List.mem_singleton.mp he with rfl
        intro e₂ h₂
        exact absurd h₂ (List.not_mem_nil e₂)
  have hsub0 : ∀ e₂ ∈ sub0 db m, e₂.2.versions.Nodup := by
    intro e₂ h₂
    unfold sub0 at h₂
    cases hf : (ensuredTable db m).find? (fun e => decide (e.1 = m.group)) with
    | none =>
      rw [hf] at h₂
      exact absurd h₂ (List.not_mem_nil e₂)
    | some e =>
      rw [hf] at h₂
      exact hens e (List.mem_of_find?_eq_some hf) e₂ h₂
  have hsubT : ∀ e₂ ∈ subTable db m, e₂.2.versions.Nodup := by
    intro e₂ h₂
    unfold subTable at h₂
    by_cases hf : (((sub0 db m).find? (fun e => decide (e.1 = m.name))).isSome) = true
    · rw [if_pos hf] at h₂
      exact hsub0 e₂ h₂
    · rw [if_neg hf] at h₂
      rcases List.mem_append.mp h₂ with h₂ | h₂
      · exact hsub0 e₂ h₂
      · rcases List.mem_singleton.mp h₂ with rfl
        exact List.nodup_nil
  have hbase : (baseEntry db m).versions.Nodup := by
    unfold baseEntry
    cases hf : (subTable db m).find? (fun e => decide (e.1 = m.name)) with
    | none => exact List.nodup_nil
    | some e₂ => exact hsubT e₂ (List.mem_of_find?_eq_some hf)
  have hentry : (entryOf db m).versions.Nodup := by
    unfold entryOf
    by_cases hv : m.version ∈ (baseEntry db m).versions
    · rw [if_pos hv]
      exact hbase
    · rw [if_neg hv]
      show ((baseEntry db m).versions ++ [m.version]).Nodup
      rw [List.nodup_append]
      refine ⟨hbase, List.nodup_singleton _, ?_⟩
      intro x hx hx1
      rcases List.mem_singleton.mp hx1 with rfl
      exact hv hx
  intro e he e₂ h₂
  rcases mem_updateAssoc he with rfl | he
  · rcases mem_updateAssoc h₂ with rfl | h₂
    · exact hentry
    · exact hsubT e₂ h₂
  · exact hens e he e₂ h₂

theorem foldRecords_nodup (fs : FS) :
    ∀ (L : List Path) (db₀ db : PluginDb),
    L.foldlM (fun db fn =>
      match fsLookup fs fn with
      | some (.metaFile m) => processRecord db m
      | _ => throw Err.malformedRecord) db₀ = .ok db →
    TableNodupV db₀.table → TableNodupV db.table := by
  intro L
  induction L with
  | nil =>
    intro db₀ db h h₀
    rw [List.foldlM_nil] at h
    injection h with h
    subst h
    exact h₀
  | cons p t ih =>
    intro db₀ db h h₀
    rw [List.foldlM_cons] at h
    obtain ⟨db₁, h₁, h₂⟩ := exc_bind_eq_ok h
    cases hfl : fsLookup fs p with
    | none =>
      rw [hfl] at h₁
      exact Except.noConfusion h₁
    | some c =>
      cases c with
      | zipArchive i b =>
        rw [hfl] at h₁
        exact Except.noConfusion h₁
      | sidecar d =>
        rw [hfl] at h₁
        exact Except.noConfusion h₁
      | indexFile d =>
        rw [hfl] at h₁
        exact Except.noConfusion h₁
      | metaFile m =>
        rw [hfl] at h₁
        exact ih db₁ db h₂ (processRecord_nodup h₁ h₀)

theorem scanRecords_nodup {fs : FS} {repo : Path} {db : PluginDb}
    (h : scanRecords fs repo = .ok db) : TableNodupV db.table := by
  unfold scanRecords at h
  refine foldRecords_nodup fs _ _ db h ?_
  intro e he
  exact absurd he (List.not_mem_nil e)

theorem mapM_mem {ε α β : Type} {f : α → Except ε β} :
    ∀ {l : List α} {l' : List β}, l.mapM f = .ok l' → ∀ y ∈ l', ∃ x ∈ l, f x = .ok y := by
  intro l
  induction l with
  | nil =>
    intro l' h y hy
    rw [List.mapM_nil] at h
    injection h with h
    subst h
    exact absurd hy (List.not_mem_nil y)
  | cons a t ih =>
    intro l' h y hy
    rw [List.mapM_cons] at h
    obtain ⟨b, hb, h₂⟩ := exc_bind_eq_ok h
    obtain ⟨bs, hbs, h₃⟩ := exc_bind_eq_ok h₂
    injection h₃ with h₃
    subst h₃
    rcases List.mem_cons.mp hy with rfl | hy
    · exact ⟨a, List.mem_cons_self a t, hb⟩
    · obtain ⟨x, hx, hxy⟩ := ih hbs y hy
      exact ⟨x, List.mem_cons_of_mem a hx, hxy⟩

theorem sortStep_nodup {table table₁ : List (Str × List (Str × PluginEntry))} {t : Str}
    (h : sortStep table t = .ok table₁) (hT : TableNodupV table) : TableNodupV table₁ := by
  unfold sortStep at h
  cases hft : table.find? (fun e => decide (e.1 = t)) with
  | none =>
    rw [hft] at h
    exact Except.noConfusion h
  | some e =>
    rw [hft] at h
    have h' : (e.2.mapM sortEntry >>= fun sub' =>
        pure (updateAssoc table t sub')) = .ok table₁ := h
    obtain ⟨sub', hmap, hpure⟩ := exc_bind_eq_ok h'
    injection hpure with hpure
    subst hpure
    have hsub' : ∀ e₂ ∈ sub', e₂.2.versions.Nodup := by
      intro e₂ h₂
      obtain ⟨x, hx, hxy⟩ := mapM_mem hmap e₂ h₂
      exact ((sortEntry_spec x e₂ hxy).2.symm).nodup
        (hT e (List.mem_of_find?_eq_some hft) x hx)
    intro e' he' e₂ h₂
    rcases mem_updateAssoc he' with rfl | he'
    · exact hsub' e₂ h₂
    · exact hT e' he' e₂ h₂

theorem sortPhase_nodup {db db' : PluginDb} (h : sortPhase db = .ok db')
    (hT : TableNodupV db.table) : TableNodupV db'.table := by
  have h' : (db.groups.foldlM sortStep db.table >>= fun table =>
      pure ({ db with table := table } : PluginDb)) = .ok db' := h
  obtain ⟨tbl, h₁, h₂⟩ := exc_bind_eq_ok h'
  injection h₂ with h₂
  subst h₂
  show TableNodupV tbl
  clear h h'
  revert h₁
  generalize db.table = table₀ at hT
  revert table₀
  induction db.groups with
  | nil =>
    intro table₀ hT h₁
    rw [List.foldlM_nil] at h₁
    injection h₁ with h₁
    subst h₁
    exact hT
  | cons t ts ih =>
    intro table₀ hT h₁
    rw [List.foldlM_cons] at h₁
    obtain ⟨table₁, hs, h₂⟩ := exc_bind_eq_ok h₁
    exact ih table₁ (sortStep_nodup hs hT) h₂

/-- Extracting the `(group, name)` entry a true `dbHas` looked through. -/
theorem dbHas_versions {db : PluginDb} {g n v : Str} (h : dbHas db g n v = true) :
    ∃ e e₂, db.table.find? (fun e => decide (e.1 = g)) = some e
      ∧ e.2.find? (fun e => decide (e.1 = n)) = some e₂
      ∧ v ∈ e₂.2.versions := by
  unfold dbHas dbHasT at h
  cases hft : db.table.find? (fun e => decide (e.1 = g)) with
  | none =>
    rw [hft] at h
    exact Bool.noConfusion h
  | some e =>
    rw [hft] at h
    simp only [Option.map_some', Option.some_bind] at h
    cases hfs : e.2.find? (fun e => decide (e.1 = n)) with
    | none =>
      rw [hfs] at h
      exact Bool.noConfusion h
    | some e₂ =>
      rw [hfs] at h
      simp only [Option.map_some', Option.getD_some, decide_eq_true_eq] at h
      exact ⟨e, e₂, rfl, hfs, h⟩

theorem count_eq_one_of_nodup_mem {l : List Str} {a : Str} (hnd : l.Nodup) (hm : a ∈ l) :
    l.count a = 1 := by
  induction l with
  | nil => exact absurd hm (List.not_mem_nil a)
  | cons b t ih =>
    rw [List.count_cons, List.nodup_cons] at *
    rcases List.mem_cons.mp hm with rfl | hm'
    · rw [List.count_eq_zero.mpr hnd.1]
      simp
    · have hab : a ≠ b := fun he => hnd.1 (he ▸ hm')
      rw [ih hnd.2 hm', if_neg (by simpa using fun he => hab he.symm)]

/-- C7: ingesting the same `(category, name, version)` identity twice is an
idempotent replace.  Both installs succeed; afterwards the version directory
holds exactly one archive, one metadata file and one sidecar of each kind
(the six written names); the metadata record is the second install's
(last-write-wins); and any successful rebuild lists the version exactly once
in that plugin's version list. -/
theorem C7_reingest_same_identity_idempotent
    {arch₁ arch₂ : Archive} {kvs₁ kvs₂ : List (Str × Str)} {g n v d₁ a₁ u₁ d₂ a₂ u₂ : Str}
    (hini₁ : arch₁.ini = some kvs₁)
    (hn₁ : kvs₁.find? (fun e => decide (e.1 = str "name")) = some (str "name", n))
    (hg₁ : kvs₁.find? (fun e => decide (e.1 = str "group")) = some (str "group", g))
    (hv₁ : kvs₁.find? (fun e => decide (e.1 = str "version")) = some (str "version", v))
    (hd₁ : kvs₁.find? (fun e => decide (e.1 = str "description"))
      = some (str "description", d₁))
    (ha₁ : kvs₁.find? (fun e => decide (e.1 = str "author")) = some (str "author", a₁))
    (hu₁ : kvs₁.find? (fun e => decide (e.1 = str "url")) = some (str "url", u₁))
    (hini₂ : arch₂.ini = some kvs₂)
    (hn₂ : kvs₂.find? (fun e => decide (e.1 = str "name")) = some (str "name", n))
    (hg₂ : kvs₂.find? (fun e => decide (e.1 = str "group")) = some (str "group", g))
    (hv₂ : kvs₂.find? (fun e => decide (e.1 = str "version")) = some (str "version", v))
    (hd₂ : kvs₂.find? (fun e => decide (e.1 = str "description"))
      = some (str "description", d₂))
    (ha₂ : kvs₂.find? (fun e => decide (e.1 = str "author")) = some (str "author", a₂))
    (hu₂ : kvs₂.find? (fun e => decide (e.1 = str "url")) = some (str "url", u₂))
    (repo : Path) (t₁ t₂ : Nat) (s₀ : St)
    (hrepo : dirExists s₀.1.fs repo = true)
    (hclean : ∀ e ∈ s₀.1.fs, (repo ++ [g, n, v]).isPrefixOf e.1 = false) :
    (install_plugin allOk arch₁ repo t₁) s₀
      = (.ok (), (⟨installWrites s₀.1.fs repo g n v d₁ a₁ u₁ arch₁.bytes arch₁.ini t₁,
          s₀.1.scratches⟩, s₀.2 + 8))
    ∧ (install_plugin allOk arch₂ repo t₂)
        ((⟨installWrites s₀.1.fs repo g n v d₁ a₁ u₁ arch₁.bytes arch₁.ini t₁,
          s₀.1.scratches⟩ : World), s₀.2 + 8)
      = (.ok (), (⟨installWrites (installWrites s₀.1.fs repo g n v d₁ a₁ u₁ arch₁.bytes
          arch₁.ini t₁) repo g n v d₂ a₂ u₂ arch₂.bytes arch₂.ini t₂,
          s₀.1.scratches⟩, s₀.2 + 16))
    ∧ (∀ q : Path, (repo ++ [g, n, v]).isPrefixOf q = true →
        ((fsLookup (installWrites (installWrites s₀.1.fs repo g n v d₁ a₁ u₁ arch₁.bytes
            arch₁.ini t₁) repo g n v d₂ a₂ u₂ arch₂.bytes arch₂.ini t₂) q).isSome = true
          ↔ q ∈ installPaths repo g n v))
    ∧ fsLookup (installWrites (installWrites s₀.1.fs repo g n v d₁ a₁ u₁ arch₁.bytes
          arch₁.ini t₁) repo g n v d₂ a₂ u₂ arch₂.bytes arch₂.ini t₂)
        (repo ++ [g, n, v] ++ [str "metadata.json"])
      = some (.metaFile ⟨n, g, v, d₂, a₂, u₂, t₂, file_hash_input arch₂.bytes⟩)
    ∧ (∀ (oracle : Nat → Bool) (db : PluginDb),
        ((refresh_repository oracle repo)
          ((⟨installWrites (installWrites s₀.1.fs repo g n v d₁ a₁ u₁ arch₁.bytes
            arch₁.ini t₁) repo g n v d₂ a₂ u₂ arch₂.bytes arch₂.ini t₂,
            s₀.1.scratches⟩ : World), s₀.2 + 16)).1 = .ok db →
        ∃ e e₂, db.table.find? (fun x => decide (x.1 = g)) = some e
          ∧ e.2.find? (fun x => decide (x.1 = n)) = some e₂
          ∧ e₂.2.versions.count v = 1) := by
  refine ⟨?_, ?_, ?_, ?_, ?_⟩
  · exact install_plugin_success hini₁ hn₁ hg₁ hv₁ hd₁ ha₁ hu₁ repo t₁ s₀ hrepo
  · exact install_plugin_success hini₂ hn₂ hg₂ hv₂ hd₂ ha₂ hu₂ repo t₂ _
      (dirExists_installWrites s₀.1.fs repo g n v d₁ a₁ u₁ arch₁.bytes arch₁.ini t₁)
  · intro q hq
    constructor
    · intro hsome
      by_contra hq6
      rw [fsLookup_installWrites_other hq6, fsLookup_installWrites_other hq6] at hsome
      unfold fsLookup at hsome
      cases hfind : s₀.1.fs.find? (fun e => decide (e.1 = q)) with
      | none =>
        rw [hfind] at hsome
        exact Bool.noConfusion hsome
      | some e =>
        have hkey : e.1 = q := by simpa using List.find?_some hfind
        have hce := hclean e (List.mem_of_find?_eq_some hfind)
        rw [hkey, hq] at hce
        exact Bool.noConfusion hce
    · intro hq6
      exact fsLookup_installWrites_self_isSome hq6 _ _ _ _ _ _ _
  · exact installWrites_metadata _ repo g n v d₂ a₂ u₂ arch₂.bytes arch₂.ini t₂
  · intro oracle db h
    obtain ⟨db₀, hscan, hsort⟩ := refresh_run_ok h
    have hdb0 : dbHas db₀ g n v = true := (scanRecords_dbHas hscan g n v).mpr
      ⟨repo ++ [g, n, v] ++ [str "metadata.json"],
        ⟨n, g, v, d₂, a₂, u₂, t₂, file_hash_input arch₂.bytes⟩,
        isMetaPath_install repo g n v,
        installWrites_metadata _ repo g n v d₂ a₂ u₂ arch₂.bytes arch₂.ini t₂,
        rfl, rfl, rfl⟩
    have hdb : dbHas db g n v = true := by
      rw [sortPhase_dbHas hsort g n v]
      exact hdb0
    obtain ⟨e, e₂, hft, hfs, hvm⟩ := dbHas_versions hdb
    have hnd := sortPhase_nodup hsort (scanRecords_nodup hscan) e
      (List.mem_of_find?_eq_some hft) e₂ (List.mem_of_find?_eq_some hfs)
    exact ⟨e, e₂, hft, hfs, count_eq_one_of_nodup_mem hnd hvm⟩

def c7kvs₁ : List (Str × Str) :=
  [(str "name", str "n"), (str "group", str "g"), (str "version", str "1.0.0"),
   (str "description", str "d1"), (str "author", str "a1"), (str "url", str "u1")]

def c7kvs₂ : List (Str × Str) :=
  [(str "name", str "n"), (str "group", str "g"), (str "version", str "1.0.0"),
   (str "description", str "d2"), (str "author", str "a2"), (str "url", str "u2")]

def c7arch₁ : Archive := ⟨some c7kvs₁, [1]⟩

def c7arch₂ : Archive := ⟨some c7kvs₂, [2]⟩

/-- C7 witness: two concrete ingests of `g.n-1.0.0` into the same repository
followed by a successful rebuild, whose index lists `1.0.0` exactly once. -/
theorem C7_reingest_witness :
    ∃ e e₂, c10db.table.find? (fun x => decide (x.1 = str "g")) = some e
      ∧ e.2.find? (fun x => decide (x.1 = str "n")) = some e₂
      ∧ e₂.2.versions.count (str "1.0.0") = 1 :=
  (@C7_reingest_same_identity_idempotent c7arch₁ c7arch₂ c7kvs₁ c7kvs₂
    (str "g") (str "n") (str "1.0.0") (str "d1") (str "a1") (str "u1")
    (str "d2") (str "a2") (str "u2")
    rfl rfl rfl rfl rfl rfl rfl rfl rfl rfl rfl rfl rfl rfl
    [str "repo"] 1 2 c2st (by decide) (by decide)).2.2.2.2 allOk c10db rfl

end Slpr
